import Mathlib

/-!
Shallow embedding of the core of a distributed consistent-hash ring store:
the ring membership layer (shard/ring.go) and the dhash node's sync, clean
and migration drivers. Positions and addresses are byte sequences, modelled
as lists of natural numbers compared lexicographically exactly as Go's
bytes.Compare does. External collaborators (the radix tree, the routing
node's circular walks, the RPC transport and the clock) enter as oracle
fields of environment structures, sampled as the embedded code reads them.
-/

/-- Go bytes.Compare: lexicographic comparison returning -1, 0 or 1. -/
def bytesCompare : List Nat → List Nat → Int
  | [], [] => 0
  | [], _ :: _ => -1
  | _ :: _, [] => 1
  | a :: as, b :: bs => if a < b then -1 else if b < a then 1 else bytesCompare as bs

/-- Spec-side strict lexicographic order on byte sequences. -/
abbrev posLt (a b : List Nat) : Prop := List.Lex (· < ·) a b

namespace shard

/-- Remote models shard.Remote, a (position, address) pair; the address string
is modelled by its byte sequence. -/
structure Remote where
  Pos : List Nat
  Addr : List Nat
deriving DecidableEq, Inhabited

/-- Go Remote.less: compare positions, break ties by address. -/
def Remote.less (self other : Remote) : Bool :=
  let v := bytesCompare self.Pos other.Pos
  let v := if v = 0 then bytesCompare self.Addr other.Addr else v
  decide (v < 0)

/-- Spec-side Remote order: by position lexicographically, ties broken by
address. -/
def remoteLt (a b : Remote) : Prop :=
  posLt a.Pos b.Pos ∨ (a.Pos = b.Pos ∧ posLt a.Addr b.Addr)

instance (a b : Remote) : Decidable (remoteLt a b) := by
  unfold remoteLt; infer_instance

/-- Ring models shard.Ring, the ordered sequence of member nodes. -/
structure Ring where
  Nodes : List Remote
deriving DecidableEq, Inhabited

/-- Indexing into a node list with Go's slice semantics at in-range indices;
out-of-range reads return a placeholder (the embedded code only indexes in
range, except where a panic is modelled explicitly). -/
def nodeAt (nodes : List Remote) (i : Nat) : Remote := nodes.getD i ⟨[], []⟩

/-- Go sort.Search's binary-search loop over the half-open interval [i, j).
The fuel argument only bounds the number of rounds so that the recursion is
structural: j - i strictly shrinks every round, so a call with fuel at least
j - i never exhausts it. -/
def searchAux (f : Nat → Bool) : Nat → Nat → Nat → Nat
  | 0, i, _ => i
  | fuel + 1, i, j =>
    if i < j then
      if f ((i + j) / 2) then searchAux f fuel i ((i + j) / 2)
      else searchAux f fuel ((i + j) / 2 + 1) j
    else i

/-- Go sort.Search n f: the least index in [0, n) satisfying f, or n when none
does, assuming f monotone. -/
def sortSearch (n : Nat) (f : Nat → Bool) : Nat := searchAux f n 0 n

/-- murmur.Size, the digest width H in bytes. -/
def murmurSize : Nat := 16

/-- Go big.Int SetBytes: interpret a byte sequence as a big-endian integer. -/
def bytesToNat (bs : List Nat) : Nat := bs.foldl (fun acc b => acc * 256 + b) 0

/-- Go big.Int Bytes: the big-endian byte sequence of a non-negative integer,
without leading zeros (empty for zero). -/
def natToBytes (n : Nat) : List Nat :=
  if n = 0 then [] else natToBytes (n / 256) ++ [n % 256]
decreasing_by omega

/-- Go Ring.indices: for a position, the (before, at, after) index triple; the
last index before the position (wrapping to the highest index), the index
holding the position or -1, and the first index after it (wrapping to 0). -/
def Ring.indices (self : Ring) (pos : List Nat) : Int × Int × Int :=
  let n := self.Nodes.length
  let i := sortSearch n (fun k => decide (bytesCompare pos (nodeAt self.Nodes k).Pos < 1))
  if i = n then ((n : Int) - 1, -1, 0)
  else
    let beforeI : Int := if i = 0 then (n : Int) - 1 else (i : Int) - 1
    let cmp := bytesCompare pos (nodeAt self.Nodes i).Pos
    if cmp = 0 then
      let j := sortSearch (n - i) (fun k => decide (bytesCompare pos (nodeAt self.Nodes (k + i)).Pos < 0)) + i
      (beforeI, (i : Int), if j < n then (j : Int) else 0)
    else
      (beforeI, -1, (i : Int))

/-- Contents of the backing array after Go's in-place
append(nodes[:idx], nodes[idx+1:curLen]...): elements up to curLen-1 shift one
slot left while the tail of the array keeps its stale values. -/
def removeAt (backing : List Remote) (curLen idx : Nat) : List Remote :=
  backing.take idx ++ (backing.drop (idx + 1)).take (curLen - idx - 1) ++ backing.drop (curLen - 1)

/-- One iteration of Go Ring.remove's range loop: the loop ranges over a
snapshot of the original slice header while the slice is mutated in place;
none models the slice-bounds panic reachable when a match sits at an index at
or beyond the current length. -/
def remStep (addr : List Nat) (st : Option (List Remote × Nat)) (idx : Nat) :
    Option (List Remote × Nat) :=
  match st with
  | none => none
  | some (backing, curLen) =>
    if (nodeAt backing idx).Addr = addr then
      if idx < curLen then some (removeAt backing curLen idx, curLen - 1)
      else none
    else some (backing, curLen)

/-- Go Ring.remove: remove every Remote whose address equals the argument's. -/
def Ring.remove (self : Ring) (remote : Remote) : Option Ring :=
  match (List.range self.Nodes.length).foldl (remStep remote.Addr) (some (self.Nodes, self.Nodes.length)) with
  | some (backing, curLen) => some ⟨backing.take curLen⟩
  | none => none

/-- State of Go Ring.add's deduplication loop: still scanning, returned early
because the remote is already present, or hit the slice-bounds panic. -/
inductive AddScan where
  | go (backing : List Remote) (curLen : Nat)
  | done (nodes : List Remote)
  | failed
deriving DecidableEq

/-- One iteration of Go Ring.add's range loop: on an address match the method
either returns (same position) or removes the entry in place. -/
def addStep (remote : Remote) (st : AddScan) (idx : Nat) : AddScan :=
  match st with
  | .done ns => .done ns
  | .failed => .failed
  | .go backing curLen =>
    if (nodeAt backing idx).Addr = remote.Addr then
      if bytesCompare (nodeAt backing idx).Pos remote.Pos = 0 then .done (backing.take curLen)
      else if idx < curLen then .go (removeAt backing curLen idx) (curLen - 1)
      else .failed
    else .go backing curLen

/-- Go Ring.add: drop any entry with the same address at another position (a
no-op returning early when the remote is already present), then insert the
remote at the position found by sort.Search under Remote.less. -/
def Ring.add (self : Ring) (remote : Remote) : Option Ring :=
  match (List.range self.Nodes.length).foldl (addStep remote) (.go self.Nodes self.Nodes.length) with
  | .failed => none
  | .done ns => some ⟨ns⟩
  | .go backing curLen =>
    let nodes := backing.take curLen
    let i := sortSearch nodes.length (fun k => remote.less (nodeAt nodes k))
    if i < nodes.length then some ⟨nodes.take i ++ remote :: nodes.drop i⟩
    else some ⟨nodes ++ [remote]⟩

/-- One step of Go Ring.getSlot's scan, faithful to the source: in the
non-wrap branch the source reads next from Nodes[i].Pos, the same entry, so
every arc except the wrap arc measures zero. The accumulator carries
(biggestSpace, biggestSpaceIndex); biggestSpace starts at zero and only grows,
so the signed big.Int arithmetic stays non-negative wherever it is consumed. -/
def getSlotScan (nodes : List Remote) (st : Int × Nat) (i : Nat) : Int × Nat :=
  let cur : Int := (bytesToNat (nodeAt nodes i).Pos : Int)
  let next : Int :=
    if i + 1 < nodes.length then (bytesToNat (nodeAt nodes i).Pos : Int)
    else (2 : Int) ^ (8 * murmurSize) + (bytesToNat (nodeAt nodes 0).Pos : Int)
  let thisSpace := next - cur
  if st.1 < thisSpace then (thisSpace, i) else st

/-- Go Ring.getSlot: scan the arcs, then return the byte sequence of the
selected node's position plus half the selected space. -/
def Ring.getSlot (self : Ring) : List Nat :=
  let st := (List.range self.Nodes.length).foldl (getSlotScan self.Nodes) (0, 0)
  natToBytes (Int.toNat ((bytesToNat (nodeAt self.Nodes st.2).Pos : Int) + st.1 / 2))

/-- Modelled from the spec: one step of getSlot as specified, with next taken
from the following node's position in the non-wrap case ("returns the midpoint
position of the largest arc between consecutive ring entries"). -/
def getSlotSpecScan (nodes : List Remote) (st : Int × Nat) (i : Nat) : Int × Nat :=
  let cur : Int := (bytesToNat (nodeAt nodes i).Pos : Int)
  let next : Int :=
    if i + 1 < nodes.length then (bytesToNat (nodeAt nodes (i + 1)).Pos : Int)
    else (2 : Int) ^ (8 * murmurSize) + (bytesToNat (nodeAt nodes 0).Pos : Int)
  let thisSpace := next - cur
  if st.1 < thisSpace then (thisSpace, i) else st

/-- Modelled from the spec: getSlot as specified, the midpoint of the largest
arc between consecutive ring entries, wrapping past the last node via the base
1 <<< (8 * murmurSize). -/
def getSlotSpec (nodes : List Remote) : List Nat :=
  let st := (List.range nodes.length).foldl (getSlotSpecScan nodes) (0, 0)
  natToBytes (Int.toNat ((bytesToNat (nodeAt nodes st.2).Pos : Int) + st.1 / 2))

/-- Go Ring.clean, faithful to the source; none models the slice panic on an
empty ring, where the computed lower index is negative. -/
def Ring.clean (self : Ring) (predecessor successor : List Nat) : Option Ring :=
  let fromI := (self.indices predecessor).2.2
  let t := self.indices successor
  let toI := if t.2.1 ≠ -1 then t.2.1 else t.1
  if fromI > toI then
    if toI < 0 then none
    else some ⟨(self.Nodes.drop toI.toNat).take (fromI.toNat - toI.toNat)⟩
  else some ⟨self.Nodes.take fromI.toNat ++ self.Nodes.drop toI.toNat⟩

end shard

open shard

/-- Modelled from the spec: common.BetweenIE as used by the migration safety
gate, which the spec states as "Accept wantedPos only if it lies strictly
inside (pred.Pos, self.Pos) circularly"; the common package is not part of the
given sources. Membership in the circular open arc between the bounds. -/
def betweenStrict (needle lo hi : List Nat) : Bool :=
  if bytesCompare lo hi < 0 then
    decide (bytesCompare lo needle < 0) && decide (bytesCompare needle hi < 0)
  else
    decide (bytesCompare lo needle < 0) || decide (bytesCompare needle hi < 0)

/-- Claim-side predicate, following the spec's glossary for arcs: membership
in the circular arc from lo (exclusive) to hi (inclusive), wrapping when
lo is at or past hi. -/
def inArcExclIncl (needle lo hi : List Nat) : Bool :=
  if bytesCompare lo hi < 0 then
    decide (bytesCompare lo needle < 0) && decide (bytesCompare needle hi ≤ 0)
  else
    decide (bytesCompare lo needle < 0) || decide (bytesCompare needle hi ≤ 0)

namespace dhash

/-- syncInterval, in nanoseconds (time.Second). -/
def syncIntervalNs : Int := 1000000000

/-- migrateWaitFactor, the quiescence multiplier. -/
def migrateWaitFactorI : Int := 2

/-- Modelled from the spec: common.Max64, the maximum of the three timestamps
consumed by the quiescence gate; the common package sources are not given. -/
def max64 (a b c : Int) : Int := max a (max b c)

/-- Padding loop of Go Node.changePosition with structural fuel: each round
grows the position by one byte, so a call with fuel at least
murmurSize - p.length never exhausts it. -/
def padGo : Nat → List Nat → List Nat
  | 0, p => p
  | fuel + 1, p => if p.length < murmurSize then padGo fuel (p ++ [0]) else p

/-- Go Node.changePosition's padding loop: append zero bytes while the
position is shorter than murmur.Size. -/
def padPos (p : List Nat) : List Nat := padGo murmurSize p

/-- Go Node.changePosition: pad, then when the padded position differs from
the current one, SetPosition runs, lastMigrate is stored and every migrate
listener receives the old and new positions; the result carries that
(old, new) pair, and none means the call was a complete no-op. -/
def Node.changePosition (curPos newPos : List Nat) : Option (List Nat × List Nat) :=
  let np := padPos newPos
  if bytesCompare np curPos ≠ 0 then some (curPos, np) else none

/-- Oracle inputs of one Node.migrate tick: the timestamps, the routing node's
successor and predecessor, the DHash.Owned RPC outcome (none for an error),
the local Owned() count and the radix tree's size and marker-rank queries,
each sampled as the tick reads them. -/
structure MigrateEnv where
  now : Int
  lastSync : Int
  lastReroute : Int
  lastMigrate : Int
  succ : Remote
  ownedRpc : Option Nat
  myOwned : Nat
  pred : Remote
  myPos : List Nat
  rsbNilMyPos : Nat
  rsbNilSuccPos : Nat
  realSize : Nat
  nextMarkerIndex : Int → Option (List Nat)

/-- Action performed by one migrate tick; setPos carries the (old, new) pair
of the SetPosition call, the lastMigrate store and the migrate listeners. -/
inductive MigrateAction where
  | skip
  | removeSucc
  | setPos (oldPos newPos : List Nat)
deriving DecidableEq

/-- Requested target position of Node.migrate: the marker-rank lookup the
source performs after the hysteresis gate has passed; at every call site
myOwned exceeds succSize, so the Go int division on their difference agrees
with the mathematical integer division used here. -/
def migrateWantedPos (env : MigrateEnv) (succSize : Nat) : Option (List Nat) :=
  let wantedDelta : Int := ((env.myOwned : Int) - (succSize : Int)) / 2
  if bytesCompare env.pred.Pos env.myPos < 1 then
    env.nextMarkerIndex ((env.rsbNilMyPos : Int) - wantedDelta)
  else
    let ownedAfterNil : Int := (env.rsbNilSuccPos : Int)
    if ownedAfterNil > wantedDelta then env.nextMarkerIndex (ownedAfterNil - wantedDelta)
    else env.nextMarkerIndex ((env.realSize : Int) + ownedAfterNil - wantedDelta)

/-- Go Node.migrate, one tick: quiescence gate, successor probe (removing the
successor on RPC failure), hysteresis gate, marker lookup, safety gate, then
changePosition. The comparison float64(mySize) > float64(succSize)*1.5 on the
two counts is modelled exactly as 2*mySize > 3*succSize, with which it agrees
for every realizable count (both are exact in float64 up to 2^52). -/
def Node.migrate (env : MigrateEnv) : MigrateAction :=
  let lastAllowedChange := env.now - migrateWaitFactorI * syncIntervalNs
  if lastAllowedChange > max64 env.lastSync env.lastReroute env.lastMigrate then
    match env.ownedRpc with
    | none => .removeSucc
    | some succSize =>
      if env.myOwned > 10 ∧ 2 * env.myOwned > 3 * succSize then
        match migrateWantedPos env succSize with
        | none => .skip
        | some wantedPos =>
          if betweenStrict wantedPos env.pred.Pos env.myPos then
            match Node.changePosition env.myPos wantedPos with
            | some pq => .setPos pq.1 pq.2
            | none => .skip
          else .skip
      else .skip
  else .skip

/-- Oracle inputs of one Node.sync pass: replication factor, the successor
walk and the put counts reported by the push and pull runs of iteration i. -/
structure SyncEnv where
  redundancy : Nat
  firstSucc : Remote
  succOf : Remote → Remote
  predPos : List Nat
  myPos : List Nat
  pushPut : Nat → Remote → Nat
  pullPut : Nat → Remote → Nat

/-- Successor targeted at iteration i of the sync loop. -/
def syncTarget (env : SyncEnv) : Nat → Remote
  | 0 => env.firstSucc
  | n + 1 => env.succOf (syncTarget env n)

/-- Go Node.sync: for i in 0 .. R-2, push then pull the owned arc with the
next successor, accumulating (fetched, distributed). -/
def Node.syncCounts (env : SyncEnv) : Nat × Nat :=
  (List.range (env.redundancy - 1)).foldl
    (fun acc i => (acc.1 + env.pullPut i (syncTarget env i), acc.2 + env.pushPut i (syncTarget env i)))
    (0, 0)

/-- Process-wide timestamps of dhash.Node, accessed through atomic loads and
stores. -/
structure Timestamps where
  lastSync : Int
  lastReroute : Int
  lastMigrate : Int
deriving DecidableEq

/-- Timestamps of a node fresh out of NewNode: Go zero values. The change
listener installed there writes lastReroute on ring change events only. -/
def newNodeTimestamps : Timestamps := ⟨0, 0, 0⟩

/-- Effect of one completed Node.sync pass on the timestamps, read off the
function body, paired with the counts reported to the sync listeners: the body
contains no store to any timestamp. -/
def Node.syncTick (env : SyncEnv) (t : Timestamps) : Timestamps × Nat × Nat :=
  (t, Node.syncCounts env)

/-- Timestamps after n completed sync passes. -/
def afterSyncs (env : SyncEnv) (t : Timestamps) : Nat → Timestamps
  | 0 => t
  | n + 1 => (Node.syncTick env (afterSyncs env t n)).1

/-- Oracle inputs of Node.Owned: the predecessor, the local remote, and the
radix tree's range-count and total-count queries (none marks an open range
end, Go nil). -/
structure OwnedEnv where
  pred : Remote
  me : Remote
  rsb : Option (List Nat) → Option (List Nat) → Bool → Bool → Nat
  realSize : Nat

/-- Go Node.Owned: count of locally stored keys in the owned arc, split on the
comparison of the predecessor's and the local position. -/
def Node.Owned (env : OwnedEnv) : Nat :=
  let cmp := bytesCompare env.pred.Pos env.me.Pos
  if cmp < 0 then env.rsb (some env.pred.Pos) (some env.me.Pos) true false
  else if cmp > 0 then
    env.rsb (some env.pred.Pos) none true false + env.rsb none (some env.me.Pos) true false
  else if env.pred.less env.me then 0
  else env.realSize

/-- Oracle inputs of one Node.clean tick: the local position and address, the
replication factor, the tree's marker and key lookups and the routing node's
circular walks. -/
structure CleanEnv where
  myPos : List Nat
  myAddr : List Nat
  redundancy : Nat
  nextMarker : List Nat → Option (List Nat)
  hasKey : List Nat → Bool
  succFor : List Nat → Remote
  succOfRemote : Remote → Remote

/-- Go Node.circularNext: the first stored key strictly after the given one,
wrapping through the all-zero key. -/
def circularNext (env : CleanEnv) (key : List Nat) : Option (List Nat) :=
  match env.nextMarker key with
  | some k => some k
  | none =>
    let z := List.replicate murmurSize 0
    if env.hasKey z then some z else env.nextMarker z

/-- Successor chain built by Node.owners after the primary owner. -/
def ownersChain (env : CleanEnv) (prev : Remote) : Nat → List Remote
  | 0 => []
  | n + 1 =>
    let nxt := env.succOfRemote prev
    nxt :: ownersChain env nxt n

/-- Go Node.owners: the primary owner of the key followed by the next R-1
successors, and whether the local address appears among them. -/
def Node.owners (env : CleanEnv) (key : List Nat) : List Remote × Bool :=
  let os := env.succFor key :: ownersChain env (env.succFor key) (env.redundancy - 1)
  (os, os.any (fun o => decide (o.Addr = env.myAddr)))

/-- One push sync run by the clean tick: the target owner, the synced arc and
whether the Destroy option is set on it. -/
structure SyncRun where
  dst : Remote
  fromKey : List Nat
  toKey : List Nat
  destroy : Bool
deriving DecidableEq

/-- Go Node.clean, one tick: the push syncs it runs, in order. When the tick
finds no stored key, or the local node is among the owners, no sync runs. -/
def Node.clean (env : CleanEnv) : List SyncRun :=
  match circularNext env env.myPos with
  | none => []
  | some nextKey =>
    let ow := Node.owners env nextKey
    if ow.2 then []
    else
      (List.range ow.1.length).map (fun index =>
        { dst := nodeAt ow.1 index
          fromKey := nextKey
          toKey := (nodeAt ow.1 0).Pos
          destroy := decide ((index : Int) = (ow.1.length : Int) - 2) })

end dhash

open dhash

/-! Bridges between Go's bytes.Compare and the spec-side lexicographic order. -/

theorem bytesCompare_eq_zero_iff (a : List Nat) : ∀ b, bytesCompare a b = 0 ↔ a = b := by
  induction a with
  | nil =>
    intro b; cases b with
    | nil => simp [bytesCompare]
    | cons y ys => simp [bytesCompare]
  | cons x xs ih =>
    intro b; cases b with
    | nil => simp [bytesCompare]
    | cons y ys =>
      simp only [bytesCompare, List.cons.injEq]
      rcases Nat.lt_trichotomy x y with h | h | h
      · rw [if_pos h]
        constructor
        · intro hc; exact absurd hc (by decide)
        · rintro ⟨h1, -⟩; omega
      · subst h
        rw [if_neg (lt_irrefl x), if_neg (lt_irrefl x), ih ys]
        simp
      · rw [if_neg (by omega), if_pos h]
        constructor
        · intro hc; exact absurd hc (by decide)
        · rintro ⟨h1, -⟩; omega

theorem bytesCompare_neg_one_iff (a : List Nat) : ∀ b, bytesCompare a b = -1 ↔ posLt a b := by
  induction a with
  | nil =>
    intro b; cases b with
    | nil =>
      simp only [bytesCompare]
      constructor
      · intro hc; exact absurd hc (by decide)
      · intro hl; exact absurd hl (List.Lex.not_nil_right _ _)
    | cons y ys => exact iff_of_true rfl List.Lex.nil
  | cons x xs ih =>
    intro b; cases b with
    | nil =>
      simp only [bytesCompare]
      constructor
      · intro hc; exact absurd hc (by decide)
      · intro hl; exact absurd hl (List.Lex.not_nil_right _ _)
    | cons y ys =>
      simp only [bytesCompare]
      rcases Nat.lt_trichotomy x y with h | h | h
      · rw [if_pos h]
        exact iff_of_true rfl (List.Lex.rel h)
      · subst h
        rw [if_neg (lt_irrefl x), if_neg (lt_irrefl x), ih ys]
        constructor
        · exact fun hl => List.Lex.cons hl
        · intro hl
          cases hl with
          | cons htail => exact htail
          | rel hr => exact absurd hr (lt_irrefl x)
      · rw [if_neg (by omega), if_pos h]
        constructor
        · intro hc; exact absurd hc (by decide)
        · intro hl
          cases hl with
          | cons htail => exact absurd h (lt_irrefl x)
          | rel hr => exact absurd hr (by omega)

theorem bytesCompare_trichot (a : List Nat) :
    ∀ b, bytesCompare a b = -1 ∨ bytesCompare a b = 0 ∨ bytesCompare a b = 1 := by
  induction a with
  | nil => intro b; cases b <;> simp [bytesCompare]
  | cons x xs ih =>
    intro b; cases b with
    | nil => simp [bytesCompare]
    | cons y ys =>
      simp only [bytesCompare]
      rcases Nat.lt_trichotomy x y with h | h | h
      · rw [if_pos h]; exact Or.inl rfl
      · subst h; rw [if_neg (lt_irrefl x), if_neg (lt_irrefl x)]; exact ih ys
      · rw [if_neg (by omega), if_pos h]; exact Or.inr (Or.inr rfl)

theorem bytesCompare_swap (a : List Nat) : ∀ b, bytesCompare b a = -bytesCompare a b := by
  induction a with
  | nil => intro b; cases b <;> simp [bytesCompare]
  | cons x xs ih =>
    intro b; cases b with
    | nil => simp [bytesCompare]
    | cons y ys =>
      simp only [bytesCompare]
      rcases Nat.lt_trichotomy x y with h | h | h
      · rw [if_neg (show ¬ y < x by omega), if_pos h, if_pos h]; decide
      · subst h
        rw [if_neg (lt_irrefl x), if_neg (lt_irrefl x), if_neg (lt_irrefl x),
          if_neg (lt_irrefl x)]
        exact ih ys
      · rw [if_pos h, if_neg (show ¬ x < y by omega), if_pos h]

theorem bytesCompare_lt_iff (a b : List Nat) : bytesCompare a b < 0 ↔ posLt a b := by
  rw [← bytesCompare_neg_one_iff]
  rcases bytesCompare_trichot a b with h | h | h <;> rw [h] <;> omega

theorem bytesCompare_gt_iff (a b : List Nat) : 0 < bytesCompare a b ↔ posLt b a := by
  have hs := bytesCompare_swap a b
  rw [← bytesCompare_lt_iff b a]
  omega

theorem posLt_irrefl (a : List Nat) : ¬ posLt a a := by
  intro h
  have h1 := (bytesCompare_neg_one_iff a a).mpr h
  have h2 := (bytesCompare_eq_zero_iff a a).mpr rfl
  omega

theorem posLt_trans {a b c : List Nat} (h1 : posLt a b) (h2 : posLt b c) : posLt a c :=
  IsTrans.trans a b c h1 h2

theorem posLt_asymm {a b : List Nat} (h : posLt a b) : ¬ posLt b a := by
  intro h2
  have h3 := (bytesCompare_neg_one_iff a b).mpr h
  have h4 := (bytesCompare_neg_one_iff b a).mpr h2
  have h5 := bytesCompare_swap a b
  omega

theorem posLt_trichot (a b : List Nat) : posLt a b ∨ a = b ∨ posLt b a :=
  trichotomous a b

theorem posLt_le_trans {a b c : List Nat} (h1 : posLt a b) (h2 : posLt b c ∨ b = c) :
    posLt a c := by
  rcases h2 with h2 | h2
  · exact posLt_trans h1 h2
  · rwa [h2] at h1

theorem posLe_lt_trans {a b c : List Nat} (h1 : posLt a b ∨ a = b) (h2 : posLt b c) :
    posLt a c := by
  rcases h1 with h1 | h1
  · exact posLt_trans h1 h2
  · rwa [← h1] at h2

theorem Remote.less_iff (a b : Remote) : a.less b = true ↔ remoteLt a b := by
  have hlt := bytesCompare_lt_iff a.Pos b.Pos
  have heq := bytesCompare_eq_zero_iff a.Pos b.Pos
  have haddr := bytesCompare_lt_iff a.Addr b.Addr
  simp only [Remote.less, remoteLt, decide_eq_true_eq]
  by_cases h : bytesCompare a.Pos b.Pos = 0
  · rw [if_pos h, haddr]
    constructor
    · intro hA; exact Or.inr ⟨heq.mp h, hA⟩
    · rintro (hP | ⟨-, hA⟩)
      · exact absurd hP (by rw [← hlt]; omega)
      · exact hA
  · rw [if_neg h, hlt]
    constructor
    · exact Or.inl
    · rintro (hP | ⟨hPe, -⟩)
      · exact hP
      · exact absurd (heq.mpr hPe) h

theorem remoteLt_irrefl (a : Remote) : ¬ remoteLt a a := by
  rintro (h | ⟨-, h⟩) <;> exact posLt_irrefl _ h

theorem remoteLt_trans {a b c : Remote} (h1 : remoteLt a b) (h2 : remoteLt b c) :
    remoteLt a c := by
  rcases h1 with h1 | ⟨e1, h1⟩ <;> rcases h2 with h2 | ⟨e2, h2⟩
  · exact Or.inl (posLt_trans h1 h2)
  · exact Or.inl (by rwa [← e2])
  · exact Or.inl (by rwa [e1])
  · exact Or.inr ⟨e1.trans e2, posLt_trans h1 h2⟩

theorem remoteLt_trichot (a b : Remote) : remoteLt a b ∨ a = b ∨ remoteLt b a := by
  rcases posLt_trichot a.Pos b.Pos with h | h | h
  · exact Or.inl (Or.inl h)
  · rcases posLt_trichot a.Addr b.Addr with h2 | h2 | h2
    · exact Or.inl (Or.inr ⟨h, h2⟩)
    · refine Or.inr (Or.inl ?_)
      cases a; cases b; simp_all
    · exact Or.inr (Or.inr (Or.inr ⟨h.symm, h2⟩))
  · exact Or.inr (Or.inr (Or.inl h))

theorem remoteLt_asymm {a b : Remote} (h : remoteLt a b) : ¬ remoteLt b a := by
  rcases h with h1 | ⟨e1, h1⟩ <;> rintro (h2 | ⟨e2, h2⟩)
  · exact posLt_asymm h1 h2
  · rw [e2] at h1; exact posLt_irrefl _ h1
  · rw [e1] at h2; exact posLt_irrefl _ h2
  · exact posLt_asymm h1 h2

/-! Correctness of the Go sort.Search embedding. -/

theorem searchAux_ge (f : Nat → Bool) : ∀ fuel i j, i ≤ searchAux f fuel i j := by
  intro fuel
  induction fuel with
  | zero => intro i j; exact Nat.le_refl i
  | succ n ih =>
    intro i j
    simp only [searchAux]
    split
    · split
      · exact ih i ((i + j) / 2)
      · have h2 := ih ((i + j) / 2 + 1) j
        omega
    · exact Nat.le_refl i

theorem searchAux_le (f : Nat → Bool) : ∀ fuel i j, i ≤ j → searchAux f fuel i j ≤ j := by
  intro fuel
  induction fuel with
  | zero => intro i j h; exact h
  | succ n ih =>
    intro i j h
    simp only [searchAux]
    split
    · split
      · have h2 := searchAux_ge f n i ((i + j) / 2)
        have h3 := ih i ((i + j) / 2) (by omega)
        omega
      · exact ih ((i + j) / 2 + 1) j (by omega)
    · exact h

theorem searchAux_found (f : Nat → Bool) :
    ∀ fuel i j, j - i ≤ fuel → i ≤ j →
      searchAux f fuel i j = j ∨ f (searchAux f fuel i j) = true := by
  intro fuel
  induction fuel with
  | zero =>
    intro i j h1 h2
    left
    simp only [searchAux]
    omega
  | succ n ih =>
    intro i j h1 h2
    simp only [searchAux]
    split
    · rename_i hij
      split
      · rename_i hfm
        rcases ih i ((i + j) / 2) (by omega) (by omega) with h3 | h3
        · right; rw [h3]; exact hfm
        · right; exact h3
      · exact ih ((i + j) / 2 + 1) j (by omega) (by omega)
    · left; omega

theorem searchAux_not_below (f : Nat → Bool) :
    ∀ fuel i j k, (∀ a b, a ≤ b → b < j → f a = true → f b = true) →
      i ≤ k → k < searchAux f fuel i j → f k = false := by
  intro fuel
  induction fuel with
  | zero =>
    intro i j k _ h1 h2
    simp only [searchAux] at h2
    exact absurd h2 (by omega)
  | succ n ih =>
    intro i j k mono h1 h2
    simp only [searchAux] at h2
    by_cases hij : i < j
    · rw [if_pos hij] at h2
      by_cases hfm : f ((i + j) / 2) = true
      · rw [if_pos hfm] at h2
        exact ih i ((i + j) / 2) k (fun a b hab hb => mono a b hab (by omega)) h1 h2
      · rw [if_neg hfm] at h2
        by_cases hk : (i + j) / 2 + 1 ≤ k
        · exact ih ((i + j) / 2 + 1) j k mono hk h2
        · cases hfk : f k with
          | false => rfl
          | true => exact absurd (mono k ((i + j) / 2) (by omega) (by omega) hfk) hfm
    · rw [if_neg hij] at h2
      exact absurd h2 (by omega)

theorem sortSearch_eq (n : Nat) (f : Nat → Bool)
    (mono : ∀ a b, a ≤ b → b < n → f a = true → f b = true) (k : Nat)
    (hk : k ≤ n) (hbelow : ∀ j, j < k → f j = false) (hit : k < n → f k = true) :
    sortSearch n f = k := by
  have hge := searchAux_ge f n 0 n
  have hle := searchAux_le f n 0 n (Nat.zero_le n)
  have hfound := searchAux_found f n 0 n (by omega) (Nat.zero_le n)
  unfold sortSearch
  by_contra hne
  rcases Nat.lt_trichotomy (searchAux f n 0 n) k with h | h | h
  · rcases hfound with h1 | h1
    · omega
    · have h2 := hbelow _ h
      rw [h2] at h1
      cases h1
  · exact hne h
  · have h2 := searchAux_not_below f n 0 n k mono (Nat.zero_le k) h
    have h3 := hit (by omega)
    rw [h3] at h2
    cases h2

theorem sortSearch_le (n : Nat) (f : Nat → Bool) : sortSearch n f ≤ n :=
  searchAux_le f n 0 n (Nat.zero_le n)

/-! Behavior of the position padding loop. -/

theorem padGo_eq :
    ∀ fuel p, murmurSize - p.length ≤ fuel →
      padGo fuel p = p ++ List.replicate (murmurSize - p.length) 0 := by
  intro fuel
  induction fuel with
  | zero =>
    intro p h
    have h0 : murmurSize - p.length = 0 := by omega
    simp [padGo, h0]
  | succ n ih =>
    intro p h
    simp only [padGo]
    by_cases hl : p.length < murmurSize
    · rw [if_pos hl, ih (p ++ [0]) (by simp; omega)]
      have h1 : murmurSize - p.length = (murmurSize - (p ++ [0]).length) + 1 := by
        simp; omega
      rw [h1, List.replicate_succ, List.append_assoc]
      rfl
    · rw [if_neg hl]
      have h0 : murmurSize - p.length = 0 := by omega
      simp [h0]

theorem padPos_eq (p : List Nat) :
    padPos p = p ++ List.replicate (murmurSize - p.length) 0 :=
  padGo_eq murmurSize p (by omega)

/-! Claim theorems for the sync driver, changePosition and Owned. -/

/-- Claim C1, code-bug evidence: the spec requires each completed Node.sync
pass to store the current time into lastSync atomically, but the source never
writes lastSync anywhere, so one sync tick leaves the timestamps untouched and
after any number of completed passes on a node fresh out of NewNode the
migration quiescence gate still reads the initial zero. -/
theorem sync_never_writes_lastSync (env : SyncEnv) :
    (∀ t : Timestamps, (Node.syncTick env t).1 = t) ∧
    ∀ n : Nat, (afterSyncs env newNodeTimestamps n).lastSync = 0 := by
  constructor
  · intro t; rfl
  · intro n
    induction n with
    | zero => rfl
    | succ k ih => exact ih

/-- Claim C10: Node.changePosition right-pads the supplied position with zero
bytes up to murmur.Size and is a complete no-op exactly when the padded
position equals the current one; otherwise SetPosition, the lastMigrate store
and the migrate listeners run, receiving the old position and the padded new
position, which differ. -/
theorem changePosition_noop_guard (cur p : List Nat) :
    padPos p = p ++ List.replicate (murmurSize - p.length) 0 ∧
    (Node.changePosition cur p = none ↔ padPos p = cur) ∧
    ∀ o np, Node.changePosition cur p = some (o, np) → o = cur ∧ np = padPos p ∧ np ≠ cur := by
  refine ⟨padPos_eq p, ?_, ?_⟩
  · constructor
    · intro hn
      by_cases h : bytesCompare (padPos p) cur = 0
      · exact (bytesCompare_eq_zero_iff _ _).mp h
      · exact absurd hn (by simp [Node.changePosition, h])
    · intro he
      have h : bytesCompare (padPos p) cur = 0 := (bytesCompare_eq_zero_iff _ _).mpr he
      simp [Node.changePosition, h]
  · intro o np hs
    by_cases h : bytesCompare (padPos p) cur = 0
    · exact absurd hs (by simp [Node.changePosition, h])
    · have h2 : cur = o ∧ padPos p = np := by
        simpa [Node.changePosition, h] using hs
      refine ⟨h2.1.symm, h2.2.symm, ?_⟩
      intro he
      exact h ((bytesCompare_eq_zero_iff _ _).mpr (h2.2.symm.symm ▸ he))

/-- Witness for the C10 theorem at a concrete call: changing position from
the one-byte current position to a two-byte argument pads and fires. -/
theorem changePosition_noop_guard_witness :
    ([1] : List Nat) = [1] ∧ (2 :: List.replicate 15 0 : List Nat) = padPos [2] ∧
      (2 :: List.replicate 15 0 : List Nat) ≠ [1] :=
  (changePosition_noop_guard [1] [2]).2.2 [1] (2 :: List.replicate 15 0) (by decide)

/-- Claim C5: Node.Owned returns the tree count of the owned arc, split as the
spec states it: the plain range count when the predecessor's position is
lexicographically below the local one, the two-sided wrap sum when above, and
on equal positions either zero (the predecessor is smaller under the Remote
(position, address) order) or the whole tree size (sole node). -/
theorem owned_cases (env : OwnedEnv) :
    (posLt env.pred.Pos env.me.Pos →
      Node.Owned env = env.rsb (some env.pred.Pos) (some env.me.Pos) true false) ∧
    (posLt env.me.Pos env.pred.Pos →
      Node.Owned env = env.rsb (some env.pred.Pos) none true false
        + env.rsb none (some env.me.Pos) true false) ∧
    (env.pred.Pos = env.me.Pos → remoteLt env.pred env.me → Node.Owned env = 0) ∧
    (env.pred.Pos = env.me.Pos → ¬ remoteLt env.pred env.me →
      Node.Owned env = env.realSize) := by
  refine ⟨?_, ?_, ?_, ?_⟩
  · intro h
    have hc : bytesCompare env.pred.Pos env.me.Pos < 0 := (bytesCompare_lt_iff _ _).mpr h
    simp [Node.Owned, hc]
  · intro h
    have hc : 0 < bytesCompare env.pred.Pos env.me.Pos := (bytesCompare_gt_iff _ _).mpr h
    simp only [Node.Owned]
    rw [if_neg (by omega), if_pos hc]
  · intro he hlt
    have hc : bytesCompare env.pred.Pos env.me.Pos = 0 := (bytesCompare_eq_zero_iff _ _).mpr he
    have hl : env.pred.less env.me = true := (Remote.less_iff _ _).mpr hlt
    simp only [Node.Owned]
    rw [if_neg (by omega), if_neg (by omega), if_pos hl]
  · intro he hnlt
    have hc : bytesCompare env.pred.Pos env.me.Pos = 0 := (bytesCompare_eq_zero_iff _ _).mpr he
    have hl : ¬ env.pred.less env.me = true := fun hx => hnlt ((Remote.less_iff _ _).mp hx)
    simp only [Node.Owned]
    rw [if_neg (by omega), if_neg (by omega), if_neg hl]

/-- Witness for the C5 theorem: all four branches at concrete inputs, with a
tree oracle that counts 7 on every range and 9 in total. -/
theorem owned_cases_witness :
    Node.Owned ⟨⟨[1], [5]⟩, ⟨[2], [6]⟩, fun _ _ _ _ => 7, 9⟩ = 7 ∧
    Node.Owned ⟨⟨[2], [5]⟩, ⟨[1], [6]⟩, fun _ _ _ _ => 7, 9⟩ = 14 ∧
    Node.Owned ⟨⟨[1], [5]⟩, ⟨[1], [6]⟩, fun _ _ _ _ => 7, 9⟩ = 0 ∧
    Node.Owned ⟨⟨[1], [6]⟩, ⟨[1], [5]⟩, fun _ _ _ _ => 7, 9⟩ = 9 :=
  ⟨(owned_cases _).1 (by decide),
   (owned_cases _).2.1 (by decide),
   (owned_cases _).2.2.1 (by decide) (by decide),
   (owned_cases _).2.2.2 (by decide) (by decide)⟩

/-- Claim C4: one migrate tick calls SetPosition only when every gate passes,
with the quiescence window strictly elapsed, the successor probe successful,
the hysteresis gate satisfied, a marker present at the requested rank, the
target strictly inside the circular open interval between the predecessor's
and the local position, and the padded target actually different from the
local position; a failed successor probe after the quiescence gate removes the
successor and nothing else, and in every other case the tick is a no-op. -/
theorem migrate_gate_characterization (env : MigrateEnv) (a b : List Nat) :
    (Node.migrate env = MigrateAction.setPos a b ↔
      (max64 env.lastSync env.lastReroute env.lastMigrate
          < env.now - migrateWaitFactorI * syncIntervalNs ∧
        ∃ s, env.ownedRpc = some s ∧ 10 < env.myOwned ∧ 3 * s < 2 * env.myOwned ∧
          ∃ w, migrateWantedPos env s = some w ∧
            betweenStrict w env.pred.Pos env.myPos = true ∧
            padPos w ≠ env.myPos ∧ a = env.myPos ∧ b = padPos w)) ∧
    (Node.migrate env = MigrateAction.removeSucc ↔
      (max64 env.lastSync env.lastReroute env.lastMigrate
          < env.now - migrateWaitFactorI * syncIntervalNs ∧ env.ownedRpc = none)) := by
  by_cases hq : max64 env.lastSync env.lastReroute env.lastMigrate
      < env.now - migrateWaitFactorI * syncIntervalNs
  · cases hrpc : env.ownedRpc with
    | none =>
      constructor
      · simp [Node.migrate, if_pos hq, hrpc]
      · simp [Node.migrate, if_pos hq, hrpc, hq]
    | some s =>
      by_cases hg : env.myOwned > 10 ∧ 2 * env.myOwned > 3 * s
      · cases hw : migrateWantedPos env s with
        | none =>
          constructor
          · simp [Node.migrate, if_pos hq, hrpc, if_pos hg, hw, hq]
          · simp [Node.migrate, if_pos hq, hrpc, if_pos hg, hw, hq]
        | some w =>
          by_cases hb : betweenStrict w env.pred.Pos env.myPos = true
          · by_cases hcp : bytesCompare (padPos w) env.myPos = 0
            · have hnone : Node.changePosition env.myPos w = none := by
                simp [Node.changePosition, hcp]
              have hpe : padPos w = env.myPos := (bytesCompare_eq_zero_iff _ _).mp hcp
              constructor
              · simp [Node.migrate, if_pos hq, hrpc, if_pos hg, hw, if_pos hb, hnone, hq, hb, hpe]
              · simp [Node.migrate, if_pos hq, hrpc, if_pos hg, hw, if_pos hb, hnone, hq]
            · have hsome : Node.changePosition env.myPos w = some (env.myPos, padPos w) := by
                simp [Node.changePosition, hcp]
              have hpe : padPos w ≠ env.myPos := fun he =>
                hcp ((bytesCompare_eq_zero_iff _ _).mpr he)
              constructor
              · simp only [Node.migrate, if_pos hq, hrpc, if_pos hg, hw, if_pos hb, hsome]
                constructor
                · intro hset
                  have h1 : env.myPos = a ∧ padPos w = b := by
                    simpa [MigrateAction.setPos.injEq] using hset
                  refine ⟨hq, s, rfl, by omega, by omega, w, hw, hb, hpe, h1.1.symm, h1.2.symm⟩
                · rintro ⟨-, s2, hs2, -, -, w2, hw2, -, -, ha, hbp⟩
                  have hs2e : s2 = s := (Option.some.inj hs2).symm
                  subst hs2e
                  rw [hw] at hw2
                  have hw2e : w2 = w := (Option.some.inj hw2).symm
                  subst hw2e
                  rw [ha, hbp]
              · simp [Node.migrate, if_pos hq, hrpc, if_pos hg, hw, if_pos hb, hsome, hq]
          · constructor
            · simp [Node.migrate, if_pos hq, hrpc, if_pos hg, hw, if_neg hb, hq, hb]
            · simp [Node.migrate, if_pos hq, hrpc, if_pos hg, hw, if_neg hb, hq]
      · constructor
        · simp only [Node.migrate, if_pos hq, hrpc, if_neg hg]
          simp [hq, hrpc]
          omega
        · simp [Node.migrate, if_pos hq, hrpc, if_neg hg, hq]
  · constructor
    · simp [Node.migrate, if_neg hq, hq]
    · simp [Node.migrate, if_neg hq, hq]

/-- Claim C6: when the clean tick finds a first stored key circularly after
the local position, it syncs nothing at all if the local node is among that
key's owners; otherwise it pushes the arc from that key to the primary owner's
position to each owner in order, setting the Destroy option on exactly the
second-to-last owner of the list. -/
theorem clean_owner_gate (env : CleanEnv) (k : List Nat)
    (hk : circularNext env env.myPos = some k) :
    ((Node.owners env k).2 = true → Node.clean env = []) ∧
    ((Node.owners env k).2 = false →
      Node.clean env =
        (List.range (Node.owners env k).1.length).map (fun i =>
          { dst := nodeAt (Node.owners env k).1 i
            fromKey := k
            toKey := (nodeAt (Node.owners env k).1 0).Pos
            destroy := decide (i + 2 = (Node.owners env k).1.length) })) := by
  constructor
  · intro ho
    unfold Node.clean
    rw [hk]
    simp [ho]
  · intro ho
    unfold Node.clean
    rw [hk]
    simp only [ho, if_neg (by simp : ¬ (false = true))]
    refine List.map_congr_left ?_
    intro i hi
    rw [List.mem_range] at hi
    have hd : ((i : Int) = ((Node.owners env k).1.length : Int) - 2) ↔
        (i + 2 = (Node.owners env k).1.length) := by omega
    simp [hd]

/-- Witness for the C6 theorem: a three-owner configuration where the local
node is not an owner; the second of the three owners gets the Destroy run. -/
theorem clean_owner_gate_witness :
    Node.clean
        ⟨[5], [200], 3, fun _ => some [7], fun _ => false,
          fun _ => ⟨[9], [101]⟩, fun r => ⟨r.Pos, r.Addr ++ [1]⟩⟩ =
      [⟨⟨[9], [101]⟩, [7], [9], false⟩,
       ⟨⟨[9], [101, 1]⟩, [7], [9], true⟩,
       ⟨⟨[9], [101, 1, 1]⟩, [7], [9], false⟩] := by
  have h := (clean_owner_gate
    ⟨[5], [200], 3, fun _ => some [7], fun _ => false,
      fun _ => ⟨[9], [101]⟩, fun r => ⟨r.Pos, r.Addr ++ [1]⟩⟩ [7] (by decide)).2 (by decide)
  rw [h]
  decide

/-! Index bookkeeping for the in-place removal loop of Ring.add and
Ring.remove. -/

theorem nodeAt_eq_getElemOpt (l : List Remote) (i : Nat) :
    nodeAt l i = (l[i]?).getD ⟨[], []⟩ := by
  simp [nodeAt, List.getD_eq_getD_get?, List.get?_eq_getElem?]

theorem nodeAt_lt (l : List Remote) (i : Nat) (h : i < l.length) : nodeAt l i = l[i] := by
  rw [nodeAt_eq_getElemOpt, List.getElem?_eq_getElem h]
  rfl

theorem mem_take_bound {l : List Remote} {i : Nat} {a : Remote} (h : a ∈ l.take i) :
    ∃ j, j < i ∧ j < l.length ∧ nodeAt l j = a := by
  obtain ⟨jj, hjj, he⟩ := List.getElem_of_mem h
  have hlen := hjj
  rw [List.length_take] at hlen
  refine ⟨jj, by omega, by omega, ?_⟩
  rw [nodeAt_lt _ _ (by omega), ← he, List.getElem_take]

theorem mem_drop_bound {l : List Remote} {i : Nat} {a : Remote} (h : a ∈ l.drop i) :
    ∃ j, i ≤ j ∧ j < l.length ∧ nodeAt l j = a := by
  obtain ⟨jj, hjj, he⟩ := List.getElem_of_mem h
  have hlen := hjj
  rw [List.length_drop] at hlen
  refine ⟨i + jj, by omega, by omega, ?_⟩
  rw [nodeAt_lt _ _ (by omega), ← he, List.getElem_drop]

theorem nodeAt_removeAt_full (nodes : List Remote) (k j : Nat) (hk : k < nodes.length) :
    nodeAt (removeAt nodes nodes.length k) j =
      if j + 1 < nodes.length ∧ k ≤ j then nodeAt nodes (j + 1) else nodeAt nodes j := by
  have hA : (nodes.take k).length = k := List.length_take_of_le (by omega)
  have hB : ((nodes.drop (k + 1)).take (nodes.length - k - 1)).length
      = nodes.length - k - 1 := by
    rw [List.length_take, List.length_drop]
    omega
  unfold removeAt
  by_cases h1 : j < k
  · rw [if_neg (by omega), nodeAt_eq_getElemOpt, nodeAt_eq_getElemOpt]
    rw [List.getElem?_append_left (by rw [List.length_append, hA, hB]; omega),
      List.getElem?_append_left (by omega),
      List.getElem?_take_of_lt h1]
  · by_cases h2 : j + 1 < nodes.length
    · rw [if_pos ⟨h2, by omega⟩, nodeAt_eq_getElemOpt, nodeAt_eq_getElemOpt]
      rw [List.getElem?_append_left (by rw [List.length_append, hA, hB]; omega)]
      rw [List.getElem?_append_right (by rw [hA]; omega)]
      rw [hA]
      rw [List.getElem?_take_of_lt (by omega)]
      rw [List.getElem?_drop]
      rw [show k + 1 + (j - k) = j + 1 from by omega]
    · rw [if_neg (by omega), nodeAt_eq_getElemOpt, nodeAt_eq_getElemOpt]
      rw [List.getElem?_append_right (by rw [List.length_append, hA, hB]; omega)]
      rw [List.length_append, hA, hB]
      rw [List.getElem?_drop]
      rw [show nodes.length - 1 + (j - (k + (nodes.length - k - 1))) = j from by omega]

theorem removeAt_take_eraseIdx (nodes : List Remote) (k : Nat) (hk : k < nodes.length) :
    (removeAt nodes nodes.length k).take (nodes.length - 1) = nodes.eraseIdx k := by
  have hA : (nodes.take k).length = k := List.length_take_of_le (by omega)
  have hBfull : (nodes.drop (k + 1)).take (nodes.length - k - 1) = nodes.drop (k + 1) :=
    List.take_of_length_le (by rw [List.length_drop]; omega)
  have hX : (nodes.take k ++ nodes.drop (k + 1)).length = nodes.length - 1 := by
    rw [List.length_append, hA, List.length_drop]
    omega
  unfold removeAt
  rw [hBfull, List.take_append_eq_append_take,
    List.take_of_length_le (le_of_eq hX), hX, Nat.sub_self, List.take_zero,
    List.append_nil, List.eraseIdx_eq_take_drop_succ]

/-! Behavior of the range loops of Ring.remove and Ring.add. -/

theorem foldl_remStep_none (addr : List Nat) (L : List Nat) :
    L.foldl (remStep addr) none = none := by
  induction L with
  | nil => rfl
  | cons x xs ih => simpa [remStep] using ih

theorem foldl_remStep_no_match (addr : List Nat) (backing : List Remote) (curLen : Nat) :
    ∀ L : List Nat, (∀ idx ∈ L, (nodeAt backing idx).Addr ≠ addr) →
      L.foldl (remStep addr) (some (backing, curLen)) = some (backing, curLen) := by
  intro L
  induction L with
  | nil => intro _; rfl
  | cons x xs ih =>
    intro h
    simp only [List.foldl_cons]
    have hx : remStep addr (some (backing, curLen)) x = some (backing, curLen) := by
      simp [remStep, h x (List.mem_cons_self x xs)]
    rw [hx]
    exact ih fun idx hidx => h idx (List.mem_cons_of_mem x hidx)

theorem foldl_addStep_done (r : Remote) (ns : List Remote) (L : List Nat) :
    L.foldl (addStep r) (AddScan.done ns) = AddScan.done ns := by
  induction L with
  | nil => rfl
  | cons x xs ih => simpa [addStep] using ih

theorem foldl_addStep_no_match (r : Remote) (backing : List Remote) (curLen : Nat) :
    ∀ L : List Nat, (∀ idx ∈ L, (nodeAt backing idx).Addr ≠ r.Addr) →
      L.foldl (addStep r) (AddScan.go backing curLen) = AddScan.go backing curLen := by
  intro L
  induction L with
  | nil => intro _; rfl
  | cons x xs ih =>
    intro h
    simp only [List.foldl_cons]
    have hx : addStep r (AddScan.go backing curLen) x = AddScan.go backing curLen := by
      simp [addStep, h x (List.mem_cons_self x xs)]
    rw [hx]
    exact ih fun idx hidx => h idx (List.mem_cons_of_mem x hidx)

theorem range_split_at (n k : Nat) (hk : k < n) :
    List.range n = List.range k ++ k :: List.range' (k + 1) (n - k - 1) := by
  have h1 := List.range'_append 0 k (n - k) 1
  rw [show 0 + 1 * k = k by omega, show n - k + k = n by omega] at h1
  have h2 : List.range' k (n - k) = k :: List.range' (k + 1) (n - k - 1) := by
    rw [show n - k = (n - k - 1) + 1 from by omega]
    exact List.range'_succ k (n - k - 1) 1
  rw [List.range_eq_range' n, ← h1, List.range_eq_range' k, h2]

theorem suffix_no_match_after_removal (nodes : List Remote) (r : Remote) (k : Nat)
    (hk : k < nodes.length)
    (huniq : ∀ j, j < nodes.length → j ≠ k → (nodeAt nodes j).Addr ≠ r.Addr) :
    ∀ idx ∈ List.range' (k + 1) (nodes.length - k - 1),
      (nodeAt (removeAt nodes nodes.length k) idx).Addr ≠ r.Addr := by
  intro idx hidx
  rw [List.mem_range'_1] at hidx
  rw [nodeAt_removeAt_full nodes k idx hk]
  by_cases h2 : idx + 1 < nodes.length ∧ k ≤ idx
  · rw [if_pos h2]
    exact huniq (idx + 1) (by omega) (by omega)
  · rw [if_neg h2]
    exact huniq idx (by omega) (by omega)

theorem remove_unique_match (nodes : List Remote) (r : Remote) (k : Nat)
    (hk : k < nodes.length)
    (hmatch : (nodeAt nodes k).Addr = r.Addr)
    (huniq : ∀ j, j < nodes.length → j ≠ k → (nodeAt nodes j).Addr ≠ r.Addr) :
    Ring.remove ⟨nodes⟩ r = some ⟨nodes.eraseIdx k⟩ := by
  unfold Ring.remove
  simp only
  rw [range_split_at nodes.length k hk, List.foldl_append]
  rw [foldl_remStep_no_match r.Addr nodes nodes.length (List.range k)
    (fun idx hidx => huniq idx (by have := List.mem_range.mp hidx; omega)
      (by have := List.mem_range.mp hidx; omega))]
  simp only [List.foldl_cons]
  rw [show remStep r.Addr (some (nodes, nodes.length)) k
      = some (removeAt nodes nodes.length k, nodes.length - 1) from by
    simp [remStep, hmatch, hk]]
  rw [foldl_remStep_no_match r.Addr (removeAt nodes nodes.length k) (nodes.length - 1)
    (List.range' (k + 1) (nodes.length - k - 1))
    (suffix_no_match_after_removal nodes r k hk huniq)]
  simp only
  rw [removeAt_take_eraseIdx nodes k hk]

theorem remove_no_match (nodes : List Remote) (r : Remote)
    (h : ∀ j, j < nodes.length → (nodeAt nodes j).Addr ≠ r.Addr) :
    Ring.remove ⟨nodes⟩ r = some ⟨nodes⟩ := by
  unfold Ring.remove
  simp only
  rw [foldl_remStep_no_match r.Addr nodes nodes.length (List.range nodes.length)
    (fun idx hidx => h idx (List.mem_range.mp hidx))]
  simp [List.take_length]

theorem add_no_match (nodes : List Remote) (r : Remote)
    (h : ∀ j, j < nodes.length → (nodeAt nodes j).Addr ≠ r.Addr) :
    Ring.add ⟨nodes⟩ r =
      some ⟨nodes.take (sortSearch nodes.length fun kk => r.less (nodeAt nodes kk))
        ++ r :: nodes.drop (sortSearch nodes.length fun kk => r.less (nodeAt nodes kk))⟩ := by
  unfold Ring.add
  simp only
  rw [foldl_addStep_no_match r nodes nodes.length (List.range nodes.length)
    (fun idx hidx => h idx (List.mem_range.mp hidx))]
  simp only [List.take_length]
  by_cases hi : sortSearch nodes.length (fun kk => r.less (nodeAt nodes kk)) < nodes.length
  · rw [if_pos hi]
  · rw [if_neg hi]
    have hle := sortSearch_le nodes.length (fun kk => r.less (nodeAt nodes kk))
    have heq : sortSearch nodes.length (fun kk => r.less (nodeAt nodes kk)) = nodes.length := by
      omega
    rw [heq]
    simp [List.take_length, List.drop_length]

theorem add_same_pos (nodes : List Remote) (r : Remote) (k : Nat)
    (hk : k < nodes.length)
    (haddr : (nodeAt nodes k).Addr = r.Addr)
    (hpos : (nodeAt nodes k).Pos = r.Pos)
    (huniq : ∀ j, j < nodes.length → j ≠ k → (nodeAt nodes j).Addr ≠ r.Addr) :
    Ring.add ⟨nodes⟩ r = some ⟨nodes⟩ := by
  unfold Ring.add
  simp only
  rw [range_split_at nodes.length k hk, List.foldl_append]
  rw [foldl_addStep_no_match r nodes nodes.length (List.range k)
    (fun idx hidx => huniq idx (by have := List.mem_range.mp hidx; omega)
      (by have := List.mem_range.mp hidx; omega))]
  simp only [List.foldl_cons]
  rw [show addStep r (AddScan.go nodes nodes.length) k
      = AddScan.done (nodes.take nodes.length) from by
    simp [addStep, haddr, (bytesCompare_eq_zero_iff _ _).mpr hpos]]
  rw [foldl_addStep_done]
  simp [List.take_length]

theorem add_diff_pos (nodes : List Remote) (r : Remote) (k : Nat)
    (hk : k < nodes.length)
    (haddr : (nodeAt nodes k).Addr = r.Addr)
    (hpos : (nodeAt nodes k).Pos ≠ r.Pos)
    (huniq : ∀ j, j < nodes.length → j ≠ k → (nodeAt nodes j).Addr ≠ r.Addr) :
    Ring.add ⟨nodes⟩ r =
      some ⟨(nodes.eraseIdx k).take (sortSearch (nodes.eraseIdx k).length
          fun kk => r.less (nodeAt (nodes.eraseIdx k) kk))
        ++ r :: (nodes.eraseIdx k).drop (sortSearch (nodes.eraseIdx k).length
          fun kk => r.less (nodeAt (nodes.eraseIdx k) kk))⟩ := by
  have hcmp : bytesCompare (nodeAt nodes k).Pos r.Pos ≠ 0 := fun hc =>
    hpos ((bytesCompare_eq_zero_iff _ _).mp hc)
  unfold Ring.add
  simp only
  rw [range_split_at nodes.length k hk, List.foldl_append]
  rw [foldl_addStep_no_match r nodes nodes.length (List.range k)
    (fun idx hidx => huniq idx (by have := List.mem_range.mp hidx; omega)
      (by have := List.mem_range.mp hidx; omega))]
  simp only [List.foldl_cons]
  rw [show addStep r (AddScan.go nodes nodes.length) k
      = AddScan.go (removeAt nodes nodes.length k) (nodes.length - 1) from by
    simp [addStep, haddr, hcmp, hk]]
  rw [foldl_addStep_no_match r (removeAt nodes nodes.length k) (nodes.length - 1)
    (List.range' (k + 1) (nodes.length - k - 1))
    (suffix_no_match_after_removal nodes r k hk huniq)]
  simp only
  rw [removeAt_take_eraseIdx nodes k hk]
  by_cases hi : sortSearch (nodes.eraseIdx k).length
      (fun kk => r.less (nodeAt (nodes.eraseIdx k) kk)) < (nodes.eraseIdx k).length
  · rw [if_pos hi]
  · rw [if_neg hi]
    have hle := sortSearch_le (nodes.eraseIdx k).length
      (fun kk => r.less (nodeAt (nodes.eraseIdx k) kk))
    have heq : sortSearch (nodes.eraseIdx k).length
        (fun kk => r.less (nodeAt (nodes.eraseIdx k) kk)) = (nodes.eraseIdx k).length := by
      omega
    rw [heq]
    simp [List.take_length, List.drop_length]

/-! Reads of the list produced by the sorted insertion. -/

theorem insert_read_below (nodes : List Remote) (r : Remote) (i j : Nat)
    (hile : i ≤ nodes.length) (hj : j < i) :
    nodeAt (nodes.take i ++ r :: nodes.drop i) j = nodeAt nodes j := by
  have hA : (nodes.take i).length = i := List.length_take_of_le hile
  rw [nodeAt_eq_getElemOpt, nodeAt_eq_getElemOpt,
    List.getElem?_append_left (by rw [hA]; omega), List.getElem?_take_of_lt hj]

theorem insert_read_at (nodes : List Remote) (r : Remote) (i : Nat)
    (hile : i ≤ nodes.length) :
    nodeAt (nodes.take i ++ r :: nodes.drop i) i = r := by
  have hA : (nodes.take i).length = i := List.length_take_of_le hile
  rw [nodeAt_eq_getElemOpt, List.getElem?_append_right (by rw [hA]), hA, Nat.sub_self,
    List.getElem?_cons_zero]
  rfl

theorem insert_read_above (nodes : List Remote) (r : Remote) (i j : Nat)
    (hile : i ≤ nodes.length) (hj : i < j) :
    nodeAt (nodes.take i ++ r :: nodes.drop i) j = nodeAt nodes (j - 1) := by
  have hA : (nodes.take i).length = i := List.length_take_of_le hile
  rw [nodeAt_eq_getElemOpt, nodeAt_eq_getElemOpt,
    List.getElem?_append_right (by rw [hA]; omega), hA]
  rw [show j - i = (j - i - 1) + 1 from by omega, List.getElem?_cons_succ,
    List.getElem?_drop]
  congr 2
  omega

theorem insert_length (nodes : List Remote) (r : Remote) (i : Nat) (hile : i ≤ nodes.length) :
    (nodes.take i ++ r :: nodes.drop i).length = nodes.length + 1 := by
  simp only [List.length_append, List.length_cons, List.length_take, List.length_drop]
  omega

theorem insert_eraseIdx (nodes : List Remote) (r : Remote) (i : Nat) (hile : i ≤ nodes.length) :
    (nodes.take i ++ r :: nodes.drop i).eraseIdx i = nodes := by
  have hA : (nodes.take i).length = i := List.length_take_of_le hile
  have h1 : (nodes.take i ++ r :: nodes.drop i).take i = nodes.take i := by
    rw [List.take_append_eq_append_take, List.take_of_length_le (le_of_eq hA), hA,
      Nat.sub_self, List.take_zero, List.append_nil]
  have h2 : (nodes.take i ++ r :: nodes.drop i).drop (i + 1) = nodes.drop i := by
    rw [List.drop_append_eq_append_drop, List.drop_of_length_le (by rw [hA]; omega), hA,
      show i + 1 - i = 1 from by omega]
    simp
  rw [List.eraseIdx_eq_take_drop_succ, h1, h2, List.take_append_drop]

/-- Claim C9 counterexample: when the remote is already in the ring, add is an
early no-op but remove still deletes it, so add then remove does not restore
the prior ring. -/
theorem add_remove_roundtrip_counterexample :
    Ring.add ⟨[⟨[10], [97]⟩]⟩ (⟨[10], [97]⟩ : Remote) = some ⟨[⟨[10], [97]⟩]⟩ ∧
    Ring.remove ⟨[⟨[10], [97]⟩]⟩ (⟨[10], [97]⟩ : Remote) = some ⟨[]⟩ ∧
    some (shard.Ring.mk []) ≠ some (shard.Ring.mk [⟨[10], [97]⟩]) := by
  refine ⟨by decide, by decide, by decide⟩

/-- Claim C9 (amended): for a ring containing no entry with the remote's
address, add followed by remove of the same remote restores the prior node
sequence exactly. -/
theorem add_remove_roundtrip (nodes : List Remote) (r : Remote)
    (hfresh : ∀ nd ∈ nodes, nd.Addr ≠ r.Addr) :
    ∃ mid, Ring.add ⟨nodes⟩ r = some mid ∧ Ring.remove mid r = some ⟨nodes⟩ := by
  have hidx : ∀ j, j < nodes.length → (nodeAt nodes j).Addr ≠ r.Addr := by
    intro j hj
    rw [nodeAt_lt _ _ hj]
    exact hfresh _ (List.getElem_mem hj)
  have hile : sortSearch nodes.length (fun kk => r.less (nodeAt nodes kk)) ≤ nodes.length :=
    sortSearch_le _ _
  refine ⟨⟨nodes.take (sortSearch nodes.length fun kk => r.less (nodeAt nodes kk))
      ++ r :: nodes.drop (sortSearch nodes.length fun kk => r.less (nodeAt nodes kk))⟩,
    add_no_match nodes r hidx, ?_⟩
  have hlen := insert_length nodes r _ hile
  have hrm := remove_unique_match
    (nodes.take (sortSearch nodes.length fun kk => r.less (nodeAt nodes kk))
      ++ r :: nodes.drop (sortSearch nodes.length fun kk => r.less (nodeAt nodes kk)))
    r (sortSearch nodes.length fun kk => r.less (nodeAt nodes kk))
    (by rw [hlen]; omega)
    (by rw [insert_read_at nodes r _ hile])
    ?_
  · rw [hrm, insert_eraseIdx nodes r _ hile]
  · intro j hj hne
    rw [hlen] at hj
    by_cases hji : j < sortSearch nodes.length (fun kk => r.less (nodeAt nodes kk))
    · rw [insert_read_below nodes r _ j hile hji]
      exact hidx j (by omega)
    · rw [insert_read_above nodes r _ j hile (by omega)]
      exact hidx (j - 1) (by omega)

/-- Witness for the amended C9 theorem: adding then removing a fresh remote on
a one-node ring restores the ring. -/
theorem add_remove_roundtrip_witness :
    ∃ mid, Ring.add ⟨[⟨[10], [97]⟩]⟩ (⟨[20], [98]⟩ : Remote) = some mid ∧
      Ring.remove mid ⟨[20], [98]⟩ = some ⟨[⟨[10], [97]⟩]⟩ :=
  add_remove_roundtrip [⟨[10], [97]⟩] ⟨[20], [98]⟩ (by decide)

theorem pairwise_nodeAt {R : Remote → Remote → Prop} {ns : List Remote}
    (h : ns.Pairwise R) :
    ∀ a b, a < b → b < ns.length → R (nodeAt ns a) (nodeAt ns b) := by
  intro a b hab hb
  have h2 := List.pairwise_iff_get.mp h ⟨a, by omega⟩ ⟨b, hb⟩ (Fin.mk_lt_mk.mpr hab)
  rwa [List.get_eq_getElem, List.get_eq_getElem,
    ← nodeAt_lt _ _ (by omega : a < ns.length), ← nodeAt_lt _ _ hb] at h2

theorem insert_pairwise (ns : List Remote) (r : Remote)
    (hsort : ns.Pairwise remoteLt)
    (huniq : ns.Pairwise (fun a b => a.Addr ≠ b.Addr))
    (hfresh : ∀ nd ∈ ns, nd.Addr ≠ r.Addr) :
    (ns.take (sortSearch ns.length fun kk => r.less (nodeAt ns kk))
      ++ r :: ns.drop (sortSearch ns.length fun kk => r.less (nodeAt ns kk))).Pairwise
        remoteLt ∧
    (ns.take (sortSearch ns.length fun kk => r.less (nodeAt ns kk))
      ++ r :: ns.drop (sortSearch ns.length fun kk => r.less (nodeAt ns kk))).Pairwise
        (fun a b => a.Addr ≠ b.Addr) := by
  set i := sortSearch ns.length fun kk => r.less (nodeAt ns kk) with hidef
  have hile : i ≤ ns.length := sortSearch_le _ _
  have hpwid := pairwise_nodeAt hsort
  have hmono : ∀ a b, a ≤ b → b < ns.length →
      r.less (nodeAt ns a) = true → r.less (nodeAt ns b) = true := by
    intro a b hab hb hfa
    rcases Nat.eq_or_lt_of_le hab with rfl | hlt
    · exact hfa
    · exact (Remote.less_iff _ _).mpr
        (remoteLt_trans ((Remote.less_iff _ _).mp hfa) (hpwid a b hlt hb))
  have hbelow : ∀ j, j < i → remoteLt (nodeAt ns j) r := by
    intro j hj
    have hf : r.less (nodeAt ns j) = false :=
      searchAux_not_below _ ns.length 0 ns.length j hmono (Nat.zero_le j) hj
    rcases remoteLt_trichot (nodeAt ns j) r with h | h | h
    · exact h
    · exfalso
      have hmem : nodeAt ns j ∈ ns := by
        rw [nodeAt_lt _ _ (by omega)]
        exact List.getElem_mem (by omega)
      exact hfresh (nodeAt ns j) hmem (by rw [h])
    · exfalso
      have hf2 : r.less (nodeAt ns j) = true := (Remote.less_iff _ _).mpr h
      rw [hf2] at hf
      cases hf
  have habove : ∀ j, i ≤ j → j < ns.length → remoteLt r (nodeAt ns j) := by
    intro j hij hj
    have hfi : r.less (nodeAt ns i) = true := by
      rcases searchAux_found (fun kk => r.less (nodeAt ns kk)) ns.length 0 ns.length
          (by omega) (by omega) with h | h
      · exfalso
        have hh : i = ns.length := h
        omega
      · exact h
    rcases Nat.eq_or_lt_of_le hij with rfl | hlt
    · exact (Remote.less_iff _ _).mp hfi
    · exact remoteLt_trans ((Remote.less_iff _ _).mp hfi) (hpwid i j hlt hj)
  have hs' : (ns.take i ++ ns.drop i).Pairwise remoteLt := by
    rw [List.take_append_drop]
    exact hsort
  have hu' : (ns.take i ++ ns.drop i).Pairwise (fun a b => a.Addr ≠ b.Addr) := by
    rw [List.take_append_drop]
    exact huniq
  obtain ⟨hs1, hs2, hs12⟩ := List.pairwise_append.mp hs'
  obtain ⟨hu1, hu2, hu12⟩ := List.pairwise_append.mp hu'
  constructor
  · rw [List.pairwise_append]
    refine ⟨hs1, ?_, ?_⟩
    · rw [List.pairwise_cons]
      refine ⟨?_, hs2⟩
      intro b hb
      obtain ⟨j, hij, hjn, he⟩ := mem_drop_bound hb
      rw [← he]
      exact habove j hij hjn
    · intro a ha x hx
      rcases List.mem_cons.mp hx with rfl | hxb
      · obtain ⟨j, hji, hjn, he⟩ := mem_take_bound ha
        rw [← he]
        exact hbelow j hji
      · exact hs12 a ha x hxb
  · rw [List.pairwise_append]
    refine ⟨hu1, ?_, ?_⟩
    · rw [List.pairwise_cons]
      refine ⟨?_, hu2⟩
      intro b hb
      exact fun he => hfresh b (List.drop_subset i ns hb) he.symm
    · intro a ha x hx
      rcases List.mem_cons.mp hx with rfl | hxb
      · exact hfresh a (List.take_subset i ns ha)
      · exact hu12 a ha x hxb

/-- Claim C8: on a ring strictly sorted under the Remote (position, address)
order with pairwise distinct addresses, a single add or remove keeps the node
sequence strictly sorted under that order with all addresses still distinct,
and neither operation hits the slice panic. -/
theorem add_remove_preserve_invariants (ring : shard.Ring) (r : Remote)
    (hsort : ring.Nodes.Pairwise remoteLt)
    (huniq : ring.Nodes.Pairwise (fun a b => a.Addr ≠ b.Addr)) :
    (∃ r1, Ring.add ring r = some r1 ∧ r1.Nodes.Pairwise remoteLt ∧
      r1.Nodes.Pairwise (fun a b => a.Addr ≠ b.Addr)) ∧
    (∃ r2, Ring.remove ring r = some r2 ∧ r2.Nodes.Pairwise remoteLt ∧
      r2.Nodes.Pairwise (fun a b => a.Addr ≠ b.Addr)) := by
  obtain ⟨nodes⟩ := ring
  have hpwaddr := pairwise_nodeAt huniq
  have huniq_idx : ∀ k, k < nodes.length → (nodeAt nodes k).Addr = r.Addr →
      ∀ j, j < nodes.length → j ≠ k → (nodeAt nodes j).Addr ≠ r.Addr := by
    intro k hk hkaddr j hj hne he
    rcases Nat.lt_or_ge j k with h | h
    · exact hpwaddr j k h hk (by rw [he, hkaddr])
    · exact hpwaddr k j (by omega) hj (by rw [he, hkaddr])
  by_cases hex : ∃ k, k < nodes.length ∧ (nodeAt nodes k).Addr = r.Addr
  · obtain ⟨k, hk, hkaddr⟩ := hex
    have hu := huniq_idx k hk hkaddr
    have herase_sort : (nodes.eraseIdx k).Pairwise remoteLt :=
      hsort.sublist (List.eraseIdx_sublist nodes k)
    have herase_uniq : (nodes.eraseIdx k).Pairwise (fun a b => a.Addr ≠ b.Addr) :=
      huniq.sublist (List.eraseIdx_sublist nodes k)
    constructor
    · by_cases hpos : (nodeAt nodes k).Pos = r.Pos
      · exact ⟨⟨nodes⟩, add_same_pos nodes r k hk hkaddr hpos hu, hsort, huniq⟩
      · have hefresh : ∀ nd ∈ nodes.eraseIdx k, nd.Addr ≠ r.Addr := by
          intro nd hnd
          rw [List.eraseIdx_eq_take_drop_succ] at hnd
          rcases List.mem_append.mp hnd with h | h
          · obtain ⟨j, hji, hjn, he⟩ := mem_take_bound h
            rw [← he]
            exact hu j hjn (by omega)
          · obtain ⟨j, hij, hjn, he⟩ := mem_drop_bound h
            rw [← he]
            exact hu j hjn (by omega)
        obtain ⟨hps, hpu⟩ := insert_pairwise (nodes.eraseIdx k) r herase_sort herase_uniq hefresh
        exact ⟨_, add_diff_pos nodes r k hk hkaddr hpos hu, hps, hpu⟩
    · exact ⟨⟨nodes.eraseIdx k⟩, remove_unique_match nodes r k hk hkaddr hu,
        herase_sort, herase_uniq⟩
  · push_neg at hex
    have hfresh : ∀ nd ∈ nodes, nd.Addr ≠ r.Addr := by
      intro nd hnd
      obtain ⟨j, hj, he⟩ := List.getElem_of_mem hnd
      rw [← he, ← nodeAt_lt _ _ hj]
      exact hex j hj
    constructor
    · obtain ⟨hps, hpu⟩ := insert_pairwise nodes r hsort huniq hfresh
      exact ⟨_, add_no_match nodes r hex, hps, hpu⟩
    · exact ⟨⟨nodes⟩, remove_no_match nodes r hex, hsort, huniq⟩

/-- Witness for the C8 theorem: a sorted two-node ring, adding and removing a
third remote. -/
theorem add_remove_preserve_invariants_witness :
    (∃ r1, Ring.add ⟨[⟨[1], [97]⟩, ⟨[2], [98]⟩]⟩ (⟨[3], [99]⟩ : Remote) = some r1 ∧
      r1.Nodes.Pairwise remoteLt ∧ r1.Nodes.Pairwise (fun a b => a.Addr ≠ b.Addr)) ∧
    (∃ r2, Ring.remove ⟨[⟨[1], [97]⟩, ⟨[2], [98]⟩]⟩ (⟨[3], [99]⟩ : Remote) = some r2 ∧
      r2.Nodes.Pairwise remoteLt ∧ r2.Nodes.Pairwise (fun a b => a.Addr ≠ b.Addr)) :=
  add_remove_preserve_invariants ⟨[⟨[1], [97]⟩, ⟨[2], [98]⟩]⟩ ⟨[3], [99]⟩
    (by decide) (by decide)

theorem ring_nodes (ns : List Remote) : (⟨ns⟩ : shard.Ring).Nodes = ns := rfl

theorem posle_trans {x y z : List Nat}
    (h1 : posLt x y ∨ x = y) (h2 : posLt y z ∨ y = z) : posLt x z ∨ x = z := by
  rcases h1 with h1 | rfl
  · rcases h2 with h2 | rfl
    · exact Or.inl (posLt_trans h1 h2)
    · exact Or.inl h1
  · exact h2


theorem indices_spec (nodes : List Remote) (pos : List Nat)
    (hne : nodes ≠ [])
    (hsort : nodes.Pairwise remoteLt) :
    ((∃ j, j < nodes.length ∧ posLt (nodeAt nodes j).Pos pos) →
      ∃ b : Nat, (Ring.indices ⟨nodes⟩ pos).1 = (b : Int) ∧ b < nodes.length ∧
        posLt (nodeAt nodes b).Pos pos ∧
        ∀ j, j < nodes.length → posLt (nodeAt nodes j).Pos pos → j ≤ b) ∧
    ((¬ ∃ j, j < nodes.length ∧ posLt (nodeAt nodes j).Pos pos) →
      (Ring.indices ⟨nodes⟩ pos).1 = (nodes.length : Int) - 1) ∧
    ((∃ j, j < nodes.length ∧ (nodeAt nodes j).Pos = pos) →
      ∃ a : Nat, (Ring.indices ⟨nodes⟩ pos).2.1 = (a : Int) ∧ a < nodes.length ∧
        (nodeAt nodes a).Pos = pos) ∧
    ((¬ ∃ j, j < nodes.length ∧ (nodeAt nodes j).Pos = pos) →
      (Ring.indices ⟨nodes⟩ pos).2.1 = -1) ∧
    ((∃ j, j < nodes.length ∧ posLt pos (nodeAt nodes j).Pos) →
      ∃ f : Nat, (Ring.indices ⟨nodes⟩ pos).2.2 = (f : Int) ∧ f < nodes.length ∧
        posLt pos (nodeAt nodes f).Pos ∧
        ∀ j, j < nodes.length → posLt pos (nodeAt nodes j).Pos → f ≤ j) ∧
    ((¬ ∃ j, j < nodes.length ∧ posLt pos (nodeAt nodes j).Pos) →
      (Ring.indices ⟨nodes⟩ pos).2.2 = 0) := by
  have hn : 0 < nodes.length := List.length_pos.mpr hne
  have hpw := pairwise_nodeAt hsort
  have hple : ∀ a b, a ≤ b → b < nodes.length →
      posLt (nodeAt nodes a).Pos (nodeAt nodes b).Pos
        ∨ (nodeAt nodes a).Pos = (nodeAt nodes b).Pos := by
    intro a b hab hb
    rcases Nat.eq_or_lt_of_le hab with rfl | hlt
    · exact Or.inr rfl
    · rcases hpw a b hlt hb with h | ⟨h, -⟩
      · exact Or.inl h
      · exact Or.inr h
  have hf1 : ∀ k, (decide (bytesCompare pos (nodeAt nodes k).Pos < 1) = true) ↔
      (posLt pos (nodeAt nodes k).Pos ∨ pos = (nodeAt nodes k).Pos) := by
    intro k
    rw [decide_eq_true_eq]
    constructor
    · intro h
      rcases bytesCompare_trichot pos (nodeAt nodes k).Pos with h2 | h2 | h2
      · exact Or.inl ((bytesCompare_neg_one_iff _ _).mp h2)
      · exact Or.inr ((bytesCompare_eq_zero_iff _ _).mp h2)
      · omega
    · rintro (h | h)
      · have := (bytesCompare_neg_one_iff pos (nodeAt nodes k).Pos).mpr h
        omega
      · have := (bytesCompare_eq_zero_iff pos (nodeAt nodes k).Pos).mpr h
        omega
  have hmono1 : ∀ a b, a ≤ b → b < nodes.length →
      decide (bytesCompare pos (nodeAt nodes a).Pos < 1) = true →
      decide (bytesCompare pos (nodeAt nodes b).Pos < 1) = true := by
    intro a b hab hb hfa
    rw [hf1] at hfa ⊢
    exact posle_trans hfa (hple a b hab hb)
  have hiLe : sortSearch nodes.length
      (fun k => decide (bytesCompare pos (nodeAt nodes k).Pos < 1)) ≤ nodes.length :=
    sortSearch_le _ _
  have hlow : ∀ k, k < sortSearch nodes.length
      (fun k => decide (bytesCompare pos (nodeAt nodes k).Pos < 1)) →
      posLt (nodeAt nodes k).Pos pos := by
    intro k hk
    have hf := searchAux_not_below _ nodes.length 0 nodes.length k hmono1 (Nat.zero_le k) hk
    rcases posLt_trichot (nodeAt nodes k).Pos pos with h | h | h
    · exact h
    · exfalso
      have ht : decide (bytesCompare pos (nodeAt nodes k).Pos < 1) = true :=
        (hf1 k).mpr (Or.inr h.symm)
      rw [ht] at hf
      cases hf
    · exfalso
      have ht : decide (bytesCompare pos (nodeAt nodes k).Pos < 1) = true :=
        (hf1 k).mpr (Or.inl h)
      rw [ht] at hf
      cases hf
  have hhigh : ∀ k, sortSearch nodes.length
        (fun k => decide (bytesCompare pos (nodeAt nodes k).Pos < 1)) ≤ k →
      k < nodes.length →
      posLt pos (nodeAt nodes k).Pos ∨ pos = (nodeAt nodes k).Pos := by
    intro k hik hk
    have hfi : decide (bytesCompare pos (nodeAt nodes (sortSearch nodes.length
        (fun k => decide (bytesCompare pos (nodeAt nodes k).Pos < 1)))).Pos < 1) = true := by
      rcases searchAux_found (fun k => decide (bytesCompare pos (nodeAt nodes k).Pos < 1))
          nodes.length 0 nodes.length (by omega) (by omega) with h | h
      · exfalso
        have hh : sortSearch nodes.length
            (fun k => decide (bytesCompare pos (nodeAt nodes k).Pos < 1)) = nodes.length := h
        omega
      · exact h
    rw [hf1] at hfi
    exact posle_trans hfi (hple _ k hik hk)
  simp only [Ring.indices, ring_nodes]
  set i := sortSearch nodes.length
    (fun k => decide (bytesCompare pos (nodeAt nodes k).Pos < 1)) with hidef
  by_cases hin : i = nodes.length
  · rw [if_pos hin]
    refine ⟨?_, ?_, ?_, ?_, ?_, ?_⟩
    · intro _
      refine ⟨nodes.length - 1, ?_, by omega, hlow _ (by omega), fun j hj _ => by omega⟩
      show (nodes.length : Int) - 1 = _
      omega
    · intro _
      rfl
    · intro hex
      exfalso
      obtain ⟨j, hj, he⟩ := hex
      have hl := hlow j (by omega)
      rw [he] at hl
      exact posLt_irrefl _ hl
    · intro _
      rfl
    · intro hex
      exfalso
      obtain ⟨j, hj, he⟩ := hex
      exact posLt_asymm he (hlow j (by omega))
    · intro _
      rfl
  · rw [if_neg hin]
    have hiln : i < nodes.length := by omega
    have hhighi := hhigh i (le_refl i) hiln
    refine ⟨?_, ?_, ?_, ?_, ?_, ?_⟩
    · intro hex
      by_cases hiz : i = 0
      · exfalso
        obtain ⟨j, hj, he⟩ := hex
        rcases hhigh j (by omega) hj with h | h
        · exact posLt_asymm he h
        · rw [← h] at he
          exact posLt_irrefl _ he
      · refine ⟨i - 1, ?_, by omega, hlow _ (by omega), ?_⟩
        · by_cases hcmp : bytesCompare pos (nodeAt nodes i).Pos = 0
          · rw [if_pos hcmp]
            show (if i = 0 then (nodes.length : Int) - 1 else (i : Int) - 1) = _
            rw [if_neg hiz]
            omega
          · rw [if_neg hcmp]
            show (if i = 0 then (nodes.length : Int) - 1 else (i : Int) - 1) = _
            rw [if_neg hiz]
            omega
        · intro j hj hjlt
          by_contra hcon
          push_neg at hcon
          rcases hhigh j (by omega) hj with h | h
          · exact posLt_asymm hjlt h
          · rw [← h] at hjlt
            exact posLt_irrefl _ hjlt
    · intro hno
      by_cases hiz : i = 0
      · by_cases hcmp : bytesCompare pos (nodeAt nodes i).Pos = 0
        · rw [if_pos hcmp]
          show (if i = 0 then (nodes.length : Int) - 1 else (i : Int) - 1) = _
          rw [if_pos hiz]
        · rw [if_neg hcmp]
          show (if i = 0 then (nodes.length : Int) - 1 else (i : Int) - 1) = _
          rw [if_pos hiz]
      · exfalso
        exact hno ⟨i - 1, by omega, hlow _ (by omega)⟩
    · intro hex
      by_cases hcmp : bytesCompare pos (nodeAt nodes i).Pos = 0
      · rw [if_pos hcmp]
        exact ⟨i, rfl, hiln, ((bytesCompare_eq_zero_iff _ _).mp hcmp).symm⟩
      · exfalso
        have hlt : posLt pos (nodeAt nodes i).Pos := by
          rcases hhighi with h | h
          · exact h
          · exact absurd ((bytesCompare_eq_zero_iff _ _).mpr h) hcmp
        obtain ⟨j, hj, he⟩ := hex
        by_cases hji : j < i
        · have hl := hlow j (by omega)
          rw [he] at hl
          exact posLt_irrefl _ hl
        · rcases hple i j (by omega) hj with h | h
          · have hcomb := posLt_trans hlt h
            rw [he] at hcomb
            exact posLt_irrefl _ hcomb
          · rw [h, he] at hlt
            exact posLt_irrefl _ hlt
    · intro hno
      by_cases hcmp : bytesCompare pos (nodeAt nodes i).Pos = 0
      · exfalso
        exact hno ⟨i, hiln, ((bytesCompare_eq_zero_iff _ _).mp hcmp).symm⟩
      · rw [if_neg hcmp]
    · intro hex
      by_cases hcmp : bytesCompare pos (nodeAt nodes i).Pos = 0
      · rw [if_pos hcmp]
        have heqp : pos = (nodeAt nodes i).Pos := (bytesCompare_eq_zero_iff _ _).mp hcmp
        have hg : ∀ k, (decide (bytesCompare pos (nodeAt nodes (k + i)).Pos < 0) = true) ↔
            posLt pos (nodeAt nodes (k + i)).Pos := by
          intro k
          rw [decide_eq_true_eq, bytesCompare_lt_iff]
        have hmong : ∀ a b, a ≤ b → b < nodes.length - i →
            decide (bytesCompare pos (nodeAt nodes (a + i)).Pos < 0) = true →
            decide (bytesCompare pos (nodeAt nodes (b + i)).Pos < 0) = true := by
          intro a b hab hb hga
          rw [hg] at hga ⊢
          rcases hple (a + i) (b + i) (by omega) (by omega) with h | h
          · exact posLt_trans hga h
          · rw [← h]
            exact hga
        set jp := sortSearch (nodes.length - i)
          (fun k => decide (bytesCompare pos (nodeAt nodes (k + i)).Pos < 0)) with hjdef
        have hjle : jp ≤ nodes.length - i := sortSearch_le _ _
        have hjlow : ∀ k, k < jp → pos = (nodeAt nodes (k + i)).Pos := by
          intro k hk
          have hf := searchAux_not_below _ (nodes.length - i) 0 (nodes.length - i) k hmong
            (Nat.zero_le k) hk
          rcases hhigh (k + i) (by omega) (by omega) with h | h
          · exfalso
            have ht := (hg k).mpr h
            rw [ht] at hf
            cases hf
          · exact h
        by_cases hjn : jp + i < nodes.length
        · have hgj : posLt pos (nodeAt nodes (jp + i)).Pos := by
            rcases searchAux_found
                (fun k => decide (bytesCompare pos (nodeAt nodes (k + i)).Pos < 0))
                (nodes.length - i) 0 (nodes.length - i) (by omega) (by omega) with h | h
            · exfalso
              have hh : jp = nodes.length - i := h
              omega
            · exact (hg jp).mp h
          refine ⟨jp + i, ?_, hjn, hgj, ?_⟩
          · show (if jp + i < nodes.length then ((jp + i : Nat) : Int) else 0) = _
            rw [if_pos hjn]
          · intro j hj hjgt
            by_contra hcon
            push_neg at hcon
            by_cases hji : j < i
            · exact posLt_asymm (hlow j (by omega)) hjgt
            · have hk := hjlow (j - i) (by omega)
              rw [show j - i + i = j from by omega] at hk
              rw [← hk] at hjgt
              exact posLt_irrefl _ hjgt
        · exfalso
          obtain ⟨j, hj, hjgt⟩ := hex
          by_cases hji : j < i
          · exact posLt_asymm (hlow j (by omega)) hjgt
          · have hk := hjlow (j - i) (by omega)
            rw [show j - i + i = j from by omega] at hk
            rw [← hk] at hjgt
            exact posLt_irrefl _ hjgt
      · rw [if_neg hcmp]
        have hlt : posLt pos (nodeAt nodes i).Pos := by
          rcases hhighi with h | h
          · exact h
          · exact absurd ((bytesCompare_eq_zero_iff _ _).mpr h) hcmp
        refine ⟨i, rfl, hiln, hlt, ?_⟩
        intro j hj hjgt
        by_contra hcon
        push_neg at hcon
        exact posLt_asymm (hlow j (by omega)) hjgt
    · intro hno
      by_cases hcmp : bytesCompare pos (nodeAt nodes i).Pos = 0
      · rw [if_pos hcmp]
        set jp := sortSearch (nodes.length - i)
          (fun k => decide (bytesCompare pos (nodeAt nodes (k + i)).Pos < 0)) with hjdef
        have hjle : jp ≤ nodes.length - i := sortSearch_le _ _
        have hjn : ¬ (jp + i < nodes.length) := by
          intro hjn
          rcases searchAux_found
              (fun k => decide (bytesCompare pos (nodeAt nodes (k + i)).Pos < 0))
              (nodes.length - i) 0 (nodes.length - i) (by omega) (by omega) with h | h
          · have hh : jp = nodes.length - i := h
            omega
          · exact hno ⟨jp + i, hjn, by
              have := h
              rw [decide_eq_true_eq, bytesCompare_lt_iff] at this
              exact this⟩
        show (if jp + i < nodes.length then ((jp + i : Nat) : Int) else 0) = 0
        rw [if_neg hjn]
      · exfalso
        have hlt : posLt pos (nodeAt nodes i).Pos := by
          rcases hhighi with h | h
          · exact h
          · exact absurd ((bytesCompare_eq_zero_iff _ _).mpr h) hcmp
        exact hno ⟨i, hiln, hlt⟩

/-- Claim C7: on a non-empty ring sorted under the Remote order, Ring.indices
returns before = the last index whose position is strictly below the probed
position (the highest index when there is none), at = an index holding the
probed position or -1 when none does, and after = the first index whose
position is strictly above it (0 when there is none), also when several
entries share the probed position. -/
theorem indices_characterization (ring : shard.Ring) (pos : List Nat)
    (hne : ring.Nodes ≠ [])
    (hsort : ring.Nodes.Pairwise remoteLt) :
    ((∃ j, j < ring.Nodes.length ∧ posLt (nodeAt ring.Nodes j).Pos pos) →
      ∃ b : Nat, (ring.indices pos).1 = (b : Int) ∧ b < ring.Nodes.length ∧
        posLt (nodeAt ring.Nodes b).Pos pos ∧
        ∀ j, j < ring.Nodes.length → posLt (nodeAt ring.Nodes j).Pos pos → j ≤ b) ∧
    ((¬ ∃ j, j < ring.Nodes.length ∧ posLt (nodeAt ring.Nodes j).Pos pos) →
      (ring.indices pos).1 = (ring.Nodes.length : Int) - 1) ∧
    ((∃ j, j < ring.Nodes.length ∧ (nodeAt ring.Nodes j).Pos = pos) →
      ∃ a : Nat, (ring.indices pos).2.1 = (a : Int) ∧ a < ring.Nodes.length ∧
        (nodeAt ring.Nodes a).Pos = pos) ∧
    ((¬ ∃ j, j < ring.Nodes.length ∧ (nodeAt ring.Nodes j).Pos = pos) →
      (ring.indices pos).2.1 = -1) ∧
    ((∃ j, j < ring.Nodes.length ∧ posLt pos (nodeAt ring.Nodes j).Pos) →
      ∃ f : Nat, (ring.indices pos).2.2 = (f : Int) ∧ f < ring.Nodes.length ∧
        posLt pos (nodeAt ring.Nodes f).Pos ∧
        ∀ j, j < ring.Nodes.length → posLt pos (nodeAt ring.Nodes j).Pos → f ≤ j) ∧
    ((¬ ∃ j, j < ring.Nodes.length ∧ posLt pos (nodeAt ring.Nodes j).Pos) →
      (ring.indices pos).2.2 = 0) := by
  obtain ⟨nodes⟩ := ring
  exact indices_spec nodes pos hne hsort

/-- Witness for the C7 theorem on a sorted two-node ring probed between the
two positions: before is 0, at is absent and after is 1. -/
theorem indices_characterization_witness :
    (∃ b : Nat,
      ((⟨[⟨[10], [97]⟩, ⟨[20], [98]⟩]⟩ : shard.Ring).indices [15]).1 = (b : Int) ∧
      b < 2 ∧ posLt (nodeAt [⟨[10], [97]⟩, ⟨[20], [98]⟩] b).Pos [15] ∧
      ∀ j, j < 2 → posLt (nodeAt [⟨[10], [97]⟩, ⟨[20], [98]⟩] j).Pos [15] → j ≤ b) ∧
    ((⟨[⟨[10], [97]⟩, ⟨[20], [98]⟩]⟩ : shard.Ring).indices [15]).2.1 = -1 ∧
    (∃ f : Nat,
      ((⟨[⟨[10], [97]⟩, ⟨[20], [98]⟩]⟩ : shard.Ring).indices [15]).2.2 = (f : Int) ∧
      f < 2 ∧ posLt [15] (nodeAt [⟨[10], [97]⟩, ⟨[20], [98]⟩] f).Pos ∧
      ∀ j, j < 2 → posLt [15] (nodeAt [⟨[10], [97]⟩, ⟨[20], [98]⟩] j).Pos → f ≤ j) := by
  have h := indices_characterization ⟨[⟨[10], [97]⟩, ⟨[20], [98]⟩]⟩ [15]
    (by decide) (by decide)
  exact ⟨h.1 ⟨0, by decide, by decide⟩,
    h.2.2.2.1 (by decide),
    h.2.2.2.2.1 ⟨1, by decide, by decide⟩⟩

/-! Helper facts about the circular open-arc predicate. -/

theorem betweenStrict_pos_cases (x lo hi : List Nat) (hlh : posLt lo hi) :
    betweenStrict x lo hi = (decide (posLt lo x) && decide (posLt x hi)) := by
  unfold betweenStrict
  rw [if_pos ((bytesCompare_lt_iff _ _).mpr hlh)]
  congr 1 <;> rw [decide_eq_decide] <;> exact bytesCompare_lt_iff _ _

theorem betweenStrict_neg_cases (x lo hi : List Nat) (hlh : ¬ posLt lo hi) :
    betweenStrict x lo hi = (decide (posLt lo x) || decide (posLt x hi)) := by
  unfold betweenStrict
  rw [if_neg (fun hc => hlh ((bytesCompare_lt_iff _ _).mp hc))]
  congr 1 <;> rw [decide_eq_decide] <;> exact bytesCompare_lt_iff _ _

theorem nodeAt_drop (l : List Remote) (n j : Nat) :
    nodeAt (l.drop n) j = nodeAt l (n + j) := by
  rw [nodeAt_eq_getElemOpt, nodeAt_eq_getElemOpt, List.getElem?_drop]

/-- Claim C2 counterexample: on the sorted ring 10, 20, 30, 40 and the
positions 15 and 35, clean keeps 10, 30, 40 rather than the entries of the
exclusive-inclusive arc (15, 35], which are 20 and 30: the entry 20 inside the
arc is removed while 10 and 40 outside it remain. -/
theorem clean_arc_counterexample :
    Ring.clean (⟨[⟨[10], [97]⟩, ⟨[20], [98]⟩, ⟨[30], [99]⟩, ⟨[40], [100]⟩]⟩ : shard.Ring)
        [15] [35] =
      some ⟨[⟨[10], [97]⟩, ⟨[30], [99]⟩, ⟨[40], [100]⟩]⟩ ∧
    Ring.clean (⟨[⟨[10], [97]⟩, ⟨[20], [98]⟩, ⟨[30], [99]⟩, ⟨[40], [100]⟩]⟩ : shard.Ring)
        [15] [35] ≠
      some ⟨[⟨[10], [97]⟩, ⟨[20], [98]⟩, ⟨[30], [99]⟩, ⟨[40], [100]⟩].filter
        (fun nd => inArcExclIncl nd.Pos [15] [35])⟩ := by
  exact ⟨by decide, by decide⟩

/-- Claim C2 (amended): on a ring with strictly increasing positions, cleaning
with the positions of two member entries removes exactly the entries whose
position lies strictly inside the circular open arc from the first argument to
the second, keeping both endpoints and everything outside that arc. -/
theorem clean_removes_strict_arc (nodes : List Remote) (p s : Nat)
    (hp : p < nodes.length) (hs : s < nodes.length)
    (hposinc : nodes.Pairwise (fun a b => posLt a.Pos b.Pos)) :
    Ring.clean ⟨nodes⟩ (nodeAt nodes p).Pos (nodeAt nodes s).Pos =
      some ⟨nodes.filter (fun nd =>
        !(betweenStrict nd.Pos (nodeAt nodes p).Pos (nodeAt nodes s).Pos))⟩ := by
  have hne : nodes ≠ [] := by
    intro h
    rw [h] at hp
    simp at hp
  have hsort : nodes.Pairwise remoteLt := hposinc.imp (fun h => Or.inl h)
  have hstrict := pairwise_nodeAt hposinc
  have hple : ∀ a b, a ≤ b → b < nodes.length →
      posLt (nodeAt nodes a).Pos (nodeAt nodes b).Pos
        ∨ (nodeAt nodes a).Pos = (nodeAt nodes b).Pos := by
    intro a b hab hb
    rcases Nat.eq_or_lt_of_le hab with rfl | hlt
    · exact Or.inr rfl
    · exact Or.inl (hstrict a b hlt hb)
  have hspred := indices_spec nodes (nodeAt nodes p).Pos hne hsort
  have hssucc := indices_spec nodes (nodeAt nodes s).Pos hne hsort
  have hat : (Ring.indices ⟨nodes⟩ (nodeAt nodes s).Pos).2.1 = (s : Int) := by
    obtain ⟨a, ha_eq, ha_lt, ha_pos⟩ := hssucc.2.2.1 ⟨s, hs, rfl⟩
    have has : a = s := by
      by_contra hne2
      rcases Nat.lt_or_ge a s with h | h
      · have hcon := hstrict a s h hs
        rw [ha_pos] at hcon
        exact posLt_irrefl _ hcon
      · have hlt : s < a := by omega
        have hcon := hstrict s a hlt ha_lt
        rw [ha_pos] at hcon
        exact posLt_irrefl _ hcon
    rw [ha_eq, has]
  have hfrom : (Ring.indices ⟨nodes⟩ (nodeAt nodes p).Pos).2.2 =
      (if p + 1 < nodes.length then ((p + 1 : Nat) : Int) else 0) := by
    by_cases hpn : p + 1 < nodes.length
    · rw [if_pos hpn]
      obtain ⟨f, hf_eq, hf_lt, hf_gt, hf_min⟩ :=
        hspred.2.2.2.2.1 ⟨p + 1, hpn, hstrict p (p + 1) (by omega) hpn⟩
      have hfp : f = p + 1 := by
        have h1 : f ≤ p + 1 := hf_min (p + 1) hpn (hstrict p (p + 1) (by omega) hpn)
        have h2 : ¬ f ≤ p := by
          intro hle
          rcases hple f p hle hp with h | h
          · exact posLt_asymm hf_gt h
          · rw [h] at hf_gt
            exact posLt_irrefl _ hf_gt
        omega
      rw [hf_eq, hfp]
    · rw [if_neg hpn]
      apply hspred.2.2.2.2.2
      rintro ⟨j, hj, hgt⟩
      rcases hple j p (by omega) hp with h | h
      · exact posLt_asymm hgt h
      · rw [h] at hgt
        exact posLt_irrefl _ hgt
  simp only [Ring.clean, ring_nodes]
  rw [hfrom, hat]
  rw [if_pos (by omega : ¬ ((s : Nat) : Int) = -1)]
  by_cases hps : p < s
  · have hpn : p + 1 < nodes.length := by omega
    rw [if_pos hpn]
    rw [if_neg (by omega : ¬ ((p + 1 : Nat) : Int) > ((s : Nat) : Int))]
    rw [Int.toNat_natCast, Int.toNat_natCast]
    have hlh : posLt (nodeAt nodes p).Pos (nodeAt nodes s).Pos := hstrict p s hps hs
    have hsplit : nodes
        = nodes.take (p + 1) ++ ((nodes.drop (p + 1)).take (s - p - 1) ++ nodes.drop s) := by
      conv_lhs => rw [← List.take_append_drop (p + 1) nodes]
      congr 1
      conv_lhs => rw [← List.take_append_drop (s - p - 1) (nodes.drop (p + 1))]
      congr 1
      rw [List.drop_drop]
      congr 1
      omega
    have c1 : (nodes.take (p + 1)).filter (fun nd =>
        !(betweenStrict nd.Pos (nodeAt nodes p).Pos (nodeAt nodes s).Pos))
        = nodes.take (p + 1) := by
      rw [List.filter_eq_self]
      intro nd hnd
      obtain ⟨j, hj1, hjn, he⟩ := mem_take_bound hnd
      have hnotlo : ¬ posLt (nodeAt nodes p).Pos nd.Pos := by
        rw [← he]
        intro hcon
        rcases hple j p (by omega) hp with h | h
        · exact posLt_asymm hcon h
        · rw [h] at hcon
          exact posLt_irrefl _ hcon
      rw [betweenStrict_pos_cases _ _ _ hlh]
      simp [hnotlo]
    have c2 : ((nodes.drop (p + 1)).take (s - p - 1)).filter (fun nd =>
        !(betweenStrict nd.Pos (nodeAt nodes p).Pos (nodeAt nodes s).Pos)) = [] := by
      rw [List.filter_eq_nil_iff]
      intro nd hnd
      obtain ⟨j, hj1, hjn, he⟩ := mem_take_bound hnd
      rw [nodeAt_drop] at he
      have hlo : posLt (nodeAt nodes p).Pos nd.Pos := by
        rw [← he]
        exact hstrict p (p + 1 + j) (by omega) (by omega)
      have hhi : posLt nd.Pos (nodeAt nodes s).Pos := by
        rw [← he]
        exact hstrict (p + 1 + j) s (by omega) hs
      rw [betweenStrict_pos_cases _ _ _ hlh]
      simp [hlo, hhi]
    have c3 : (nodes.drop s).filter (fun nd =>
        !(betweenStrict nd.Pos (nodeAt nodes p).Pos (nodeAt nodes s).Pos))
        = nodes.drop s := by
      rw [List.filter_eq_self]
      intro nd hnd
      obtain ⟨j, hij, hjn, he⟩ := mem_drop_bound hnd
      have hnothi : ¬ posLt nd.Pos (nodeAt nodes s).Pos := by
        rw [← he]
        intro hcon
        rcases hple s j hij hjn with h | h
        · exact posLt_asymm hcon h
        · rw [← h] at hcon
          exact posLt_irrefl _ hcon
      rw [betweenStrict_pos_cases _ _ _ hlh]
      simp [hnothi]
    have hfil : nodes.filter (fun nd =>
        !(betweenStrict nd.Pos (nodeAt nodes p).Pos (nodeAt nodes s).Pos))
        = nodes.take (p + 1) ++ nodes.drop s := by
      have e1 := congrArg (List.filter (fun nd =>
        !(betweenStrict nd.Pos (nodeAt nodes p).Pos (nodeAt nodes s).Pos))) hsplit
      rw [List.filter_append, List.filter_append, c1, c2, c3] at e1
      simpa using e1
    rw [hfil]
  · have hnlh : ¬ posLt (nodeAt nodes p).Pos (nodeAt nodes s).Pos := by
      intro h
      rcases hple s p (by omega) hp with h2 | h2
      · exact posLt_asymm h h2
      · rw [h2] at h
        exact posLt_irrefl _ h
    have hsplit : nodes
        = nodes.take s ++ ((nodes.drop s).take (p + 1 - s) ++ nodes.drop (p + 1)) := by
      conv_lhs => rw [← List.take_append_drop s nodes]
      congr 1
      conv_lhs => rw [← List.take_append_drop (p + 1 - s) (nodes.drop s)]
      congr 1
      rw [List.drop_drop]
      congr 1
      omega
    have c1 : (nodes.take s).filter (fun nd =>
        !(betweenStrict nd.Pos (nodeAt nodes p).Pos (nodeAt nodes s).Pos)) = [] := by
      rw [List.filter_eq_nil_iff]
      intro nd hnd
      obtain ⟨j, hj1, hjn, he⟩ := mem_take_bound hnd
      have hhi : posLt nd.Pos (nodeAt nodes s).Pos := by
        rw [← he]
        exact hstrict j s hj1 hs
      rw [betweenStrict_neg_cases _ _ _ hnlh]
      simp [hhi]
    have c2 : ((nodes.drop s).take (p + 1 - s)).filter (fun nd =>
        !(betweenStrict nd.Pos (nodeAt nodes p).Pos (nodeAt nodes s).Pos))
        = (nodes.drop s).take (p + 1 - s) := by
      rw [List.filter_eq_self]
      intro nd hnd
      obtain ⟨j, hj1, hjn, he⟩ := mem_take_bound hnd
      rw [nodeAt_drop] at he
      have hnotlo : ¬ posLt (nodeAt nodes p).Pos nd.Pos := by
        rw [← he]
        intro hcon
        rcases hple (s + j) p (by omega) hp with h | h
        · exact posLt_asymm hcon h
        · rw [h] at hcon
          exact posLt_irrefl _ hcon
      have hnothi : ¬ posLt nd.Pos (nodeAt nodes s).Pos := by
        rw [← he]
        intro hcon
        rcases hple s (s + j) (by omega) (by omega) with h | h
        · exact posLt_asymm hcon h
        · rw [← h] at hcon
          exact posLt_irrefl _ hcon
      rw [betweenStrict_neg_cases _ _ _ hnlh]
      simp [hnotlo, hnothi]
    have c3 : (nodes.drop (p + 1)).filter (fun nd =>
        !(betweenStrict nd.Pos (nodeAt nodes p).Pos (nodeAt nodes s).Pos)) = [] := by
      rw [List.filter_eq_nil_iff]
      intro nd hnd
      obtain ⟨j, hij, hjn, he⟩ := mem_drop_bound hnd
      have hlo : posLt (nodeAt nodes p).Pos nd.Pos := by
        rw [← he]
        exact hstrict p j (by omega) hjn
      rw [betweenStrict_neg_cases _ _ _ hnlh]
      simp [hlo]
    have hfil : nodes.filter (fun nd =>
        !(betweenStrict nd.Pos (nodeAt nodes p).Pos (nodeAt nodes s).Pos))
        = (nodes.drop s).take (p + 1 - s) := by
      have e1 := congrArg (List.filter (fun nd =>
        !(betweenStrict nd.Pos (nodeAt nodes p).Pos (nodeAt nodes s).Pos))) hsplit
      rw [List.filter_append, List.filter_append, c1, c2, c3] at e1
      simpa using e1
    by_cases hpn : p + 1 < nodes.length
    · rw [if_pos hpn]
      rw [if_pos (by omega : ((p + 1 : Nat) : Int) > ((s : Nat) : Int))]
      rw [if_neg (by omega : ¬ ((s : Nat) : Int) < 0)]
      rw [Int.toNat_natCast, Int.toNat_natCast]
      rw [hfil]
    · rw [if_neg hpn]
      rw [if_neg (by omega : ¬ (0 : Int) > ((s : Nat) : Int))]
      rw [show ((0 : Int)).toNat = 0 from rfl, Int.toNat_natCast, List.take_zero,
        List.nil_append]
      rw [hfil, List.take_of_length_le (by rw [List.length_drop]; omega)]

/-- Witness for the amended C2 theorem: cleaning the sorted ring 10, 20, 30,
40 with the member positions 20 and 40 removes exactly the strict interior of
the arc. -/
theorem clean_removes_strict_arc_witness :
    Ring.clean (⟨[⟨[10], [97]⟩, ⟨[20], [98]⟩, ⟨[30], [99]⟩, ⟨[40], [100]⟩]⟩ : shard.Ring)
        [20] [40] =
      some ⟨[⟨[10], [97]⟩, ⟨[20], [98]⟩, ⟨[30], [99]⟩, ⟨[40], [100]⟩].filter
        (fun nd => !(betweenStrict nd.Pos [20] [40]))⟩ :=
  clean_removes_strict_arc [⟨[10], [97]⟩, ⟨[20], [98]⟩, ⟨[30], [99]⟩, ⟨[40], [100]⟩]
    1 3 (by decide) (by decide) (by decide)

theorem natToBytes_byte_shift (b : Nat) (hb0 : 0 < b) (hb : b < 256) :
    ∀ k, natToBytes (b * 256 ^ k) = b :: List.replicate k 0 := by
  intro k
  induction k with
  | zero =>
    rw [natToBytes]
    rw [if_neg (by rw [pow_zero, mul_one]; omega : ¬ b * 256 ^ 0 = 0)]
    rw [show b * 256 ^ 0 / 256 = 0 from by rw [pow_zero, mul_one]; omega]
    rw [show b * 256 ^ 0 % 256 = b from by rw [pow_zero, mul_one]; omega]
    rw [natToBytes]
    simp
  | succ k ih =>
    rw [natToBytes]
    rw [if_neg (by
      have h1 := pow_pos (show 0 < 256 by omega) (k + 1)
      have h2 := Nat.mul_pos hb0 h1
      omega : ¬ b * 256 ^ (k + 1) = 0)]
    rw [show b * 256 ^ (k + 1) / 256 = b * 256 ^ k from by
      rw [pow_succ, ← mul_assoc]
      exact Nat.mul_div_cancel _ (by omega)]
    rw [show b * 256 ^ (k + 1) % 256 = 0 from by
      rw [pow_succ, ← mul_assoc]
      exact Nat.mul_mod_left _ _]
    rw [ih]
    rw [show List.replicate (k + 1) 0 = List.replicate k 0 ++ [(0 : Nat)] from
      List.replicate_succ' k 0]
    rfl

set_option maxRecDepth 8192 in
/-- Claim C3, code-bug evidence: on the two-node ring at positions 0x00... and
0xC0..., the largest arc is the non-wrap arc from 0x00 to 0xC0 with midpoint
0x60..., but the source computes next from the same node in the non-wrap
branch, so it always returns the wrap-arc midpoint, here 0xE0.... -/
theorem getSlot_ignores_nonwrap_arcs :
    Ring.getSlot (⟨[⟨List.replicate 16 0, [97]⟩,
        ⟨192 :: List.replicate 15 0, [98]⟩]⟩ : shard.Ring)
      = 224 :: List.replicate 15 0 ∧
    getSlotSpec [⟨List.replicate 16 0, [97]⟩, ⟨192 :: List.replicate 15 0, [98]⟩]
      = 96 :: List.replicate 15 0 ∧
    (224 :: List.replicate 15 0 : List Nat) ≠ 96 :: List.replicate 15 0 := by
  refine ⟨?_, ?_, by decide⟩
  · have e : Ring.getSlot (⟨[⟨List.replicate 16 0, [97]⟩,
        ⟨192 :: List.replicate 15 0, [98]⟩]⟩ : shard.Ring)
        = natToBytes (224 * 256 ^ 15) := rfl
    rw [e, natToBytes_byte_shift 224 (by omega) (by omega) 15]
  · have e : getSlotSpec [⟨List.replicate 16 0, [97]⟩, ⟨192 :: List.replicate 15 0, [98]⟩]
        = natToBytes (96 * 256 ^ 15) := rfl
    rw [e, natToBytes_byte_shift 96 (by omega) (by omega) 15]
